import Mathlib

/-!
Verification of `datacenter_cooling.c` (Hamiltonian-path counter over a
rectangular grid with a degree-based pruning heuristic).

The C program is embedded shallowly:

* the global configuration set up by `main` (`width`, `height`, `end`,
  `path_length`) becomes the structure `Grid` (`end` is a Lean keyword, so
  the field is called `endPos`);
* the mutable `char *visited` array becomes a `List Bool` threaded through
  the functions; every function that mutates it returns the new list;
* C `int` results become `Int`; positions are `Nat` (in the C program every
  position that is ever dereferenced is nonnegative, and the `>= 0` guards
  on `UP`/`LEFT` become `≤` comparisons);
* out-of-range reads of `visited` (undefined behaviour in C, never exercised
  on the inputs the claims quantify over) default to `true` ("visited");
* the recursion of `count_paths`/`go_into_room` is made structural on an
  explicit fuel parameter; a fuel of `width*height + 1` is proved sufficient
  (the recursion depth is bounded by the number of free cells).
-/

/-- The global configuration read by `count_paths`:
`width`, `height`, `end` (as `endPos`) and `path_length` from the C file. -/
structure Grid where
  width : Nat
  height : Nat
  endPos : Nat
  path_length : Nat
deriving DecidableEq

/-- `#define SAME_ROW(a, b) (a / width == b / width)` -/
def SAME_ROW (w a b : Nat) : Bool := a / w == b / w

/-- `#define UP(pos) (pos - width)` -/
def UP (w pos : Nat) : Nat := pos - w

/-- `#define DOWN(pos) (pos + width)` -/
def DOWN (w pos : Nat) : Nat := pos + w

/-- `#define RIGHT(pos) (pos + 1)` -/
def RIGHT (pos : Nat) : Nat := pos + 1

/-- `#define LEFT(pos) (pos - 1)` -/
def LEFT (pos : Nat) : Nat := pos - 1

/-- `#define CAN_GO_UP(pos) (UP(pos) >= 0)`; over the integers
`pos - width ≥ 0` is `width ≤ pos` (positions are nonnegative). -/
def CAN_GO_UP (w pos : Nat) : Bool := w ≤ pos

/-- `#define CAN_GO_DOWN(pos) (DOWN(pos) < width * height)` -/
def CAN_GO_DOWN (w h pos : Nat) : Bool := DOWN w pos < w * h

/-- `#define CAN_GO_RIGHT(pos) (RIGHT(pos) < width*height && SAME_ROW(pos, RIGHT(pos)))` -/
def CAN_GO_RIGHT (w h pos : Nat) : Bool :=
  RIGHT pos < w * h && SAME_ROW w pos (RIGHT pos)

/-- `#define CAN_GO_LEFT(pos) (LEFT(pos) >= 0 && SAME_ROW(pos, LEFT(pos)))`;
`pos - 1 ≥ 0` is `1 ≤ pos`. -/
def CAN_GO_LEFT (w pos : Nat) : Bool := 1 ≤ pos && SAME_ROW w pos (LEFT pos)

/-- `#define IS_FREE(pos, vector) (vector[pos] == 0)`; a read out of range
(undefined behaviour in C, never exercised on in-range states) defaults to
`true`, i.e. "not free". -/
def IS_FREE (pos : Nat) (vector : List Bool) : Bool := vector.getD pos true == false

/-- The degree computed for cell `i` by the loop body of
`path_has_rooms_with_degree_lt_2`: one unit per direction whose in-bounds
neighbour is unvisited or equals the frontier cell `crt`. -/
def degreeOf (g : Grid) (v : List Bool) (crt i : Nat) : Nat :=
  (if CAN_GO_UP g.width i && (IS_FREE (UP g.width i) v || UP g.width i == crt)
    then 1 else 0)
  + (if CAN_GO_RIGHT g.width g.height i && (IS_FREE (RIGHT i) v || RIGHT i == crt)
    then 1 else 0)
  + (if CAN_GO_DOWN g.width g.height i && (IS_FREE (DOWN g.width i) v || DOWN g.width i == crt)
    then 1 else 0)
  + (if CAN_GO_LEFT g.width i && (IS_FREE (LEFT i) v || LEFT i == crt)
    then 1 else 0)

/-- `path_has_rooms_with_degree_lt_2(int crt)`: scan all cells; report `1`
(here `true`) as soon as some unvisited cell other than `end` has degree
less than two.  The C early `return 1` is an `any` over the scan order. -/
def path_has_rooms_with_degree_lt_2 (g : Grid) (v : List Bool) (crt : Nat) : Bool :=
  (List.range (g.width * g.height)).any fun i =>
    IS_FREE i v && i != g.endPos && decide (degreeOf g v crt i < 2)

/-- `count_paths(int crt, int length)` with `go_into_room` inlined at its
four call sites (marking the room, recursing, unmarking) and the mutable
`visited` array threaded explicitly.  The first argument is fuel bounding
the recursion depth; `count_paths_succ_eq` below restates the body in terms
of `go_into_room`, and the fuel is proved irrelevant once it exceeds the
number of free cells. -/
def count_paths (g : Grid) : Nat → Nat → Nat → List Bool → Int × List Bool
  | 0, _, _, v => (0, v)
  | fuel+1, crt, length, v =>
    if crt == g.endPos && length == g.path_length then (1, v)
    else if path_has_rooms_with_degree_lt_2 g v crt then (0, v)
    else
      let r1 :=
        if CAN_GO_UP g.width crt && IS_FREE (UP g.width crt) v then
          let t := count_paths g fuel (UP g.width crt) (length+1)
                     (v.set (UP g.width crt) true)
          (t.1, t.2.set (UP g.width crt) false)
        else (0, v)
      let r2 :=
        if CAN_GO_RIGHT g.width g.height crt && IS_FREE (RIGHT crt) r1.2 then
          let t := count_paths g fuel (RIGHT crt) (length+1)
                     (r1.2.set (RIGHT crt) true)
          (t.1, t.2.set (RIGHT crt) false)
        else (0, r1.2)
      let r3 :=
        if CAN_GO_DOWN g.width g.height crt && IS_FREE (DOWN g.width crt) r2.2 then
          let t := count_paths g fuel (DOWN g.width crt) (length+1)
                     (r2.2.set (DOWN g.width crt) true)
          (t.1, t.2.set (DOWN g.width crt) false)
        else (0, r2.2)
      let r4 :=
        if CAN_GO_LEFT g.width crt && IS_FREE (LEFT crt) r3.2 then
          let t := count_paths g fuel (LEFT crt) (length+1)
                     (r3.2.set (LEFT crt) true)
          (t.1, t.2.set (LEFT crt) false)
        else (0, r3.2)
      (r1.1 + r2.1 + r3.1 + r4.1, r4.2)

/-- `go_into_room(new_room, length)`: mark the room visited, recurse, then
unmark it on return. -/
def go_into_room (g : Grid) (fuel new_room length : Nat) (v : List Bool) :
    Int × List Bool :=
  let t := count_paths g fuel new_room length (v.set new_room true)
  (t.1, t.2.set new_room false)

/-- The state accumulated by the input loop of `main`: the globals `start`,
`end`, `path_length` and the `visited` array (C globals start at zero, and
`calloc` zeroes `visited`). -/
structure Conf where
  start : Nat
  endPos : Nat
  path_length : Nat
  visited : List Bool
deriving DecidableEq

/-- One pass of the input loop of `main`, cell values supplied as a list:
value `1` marks the cell visited, `2` records `start` and marks it visited,
`3` records `end`; every value other than `1` increments `path_length`. -/
def scan_cells : Nat → List Nat → Conf → Conf
  | _, [], s => s
  | i, crt :: rest, s =>
    let s :=
      match crt with
      | 1 => { s with visited := s.visited.set i true }
      | 2 => { s with start := i, visited := s.visited.set i true }
      | 3 => { s with endPos := i }
      | _ => s
    scan_cells (i+1) rest (if crt ≠ 1 then { s with path_length := s.path_length + 1 } else s)

/-- The configuration `main` builds before searching: scan the `width*height`
cell values into the zero-initialised globals and the zeroed `visited`. -/
def main_init (w h : Nat) (cells : List Nat) : Conf :=
  scan_cells 0 cells ⟨0, 0, 0, List.replicate (w * h) false⟩

/-- The number of free (`false`) entries of `visited` that lie in range:
the measure bounding the recursion depth of `count_paths`. -/
def freeCount (v : List Bool) : Nat :=
  ((Finset.range v.length).filter fun i => v.getD i true = false).card

/-- The value `main` prints: `count_paths(start, 1)` on the configuration
built from the input.  `width*height + 1` fuel is sufficient (theorem
`count_paths_fuel_irrelevant`). -/
def main_run (w h : Nat) (cells : List Nat) : Int :=
  let c := main_init w h cells
  (count_paths ⟨w, h, c.endPos, c.path_length⟩ (w * h + 1) c.start 1 c.visited).1

/-- The same search without the pruning gate: `count_paths` with the
`path_has_rooms_with_degree_lt_2` early return removed (the plain unpruned
DFS the spec compares against). -/
def count_paths_noprune (g : Grid) : Nat → Nat → Nat → List Bool → Int × List Bool
  | 0, _, _, v => (0, v)
  | fuel+1, crt, length, v =>
    if crt == g.endPos && length == g.path_length then (1, v)
    else
      let r1 :=
        if CAN_GO_UP g.width crt && IS_FREE (UP g.width crt) v then
          let t := count_paths_noprune g fuel (UP g.width crt) (length+1)
                     (v.set (UP g.width crt) true)
          (t.1, t.2.set (UP g.width crt) false)
        else (0, v)
      let r2 :=
        if CAN_GO_RIGHT g.width g.height crt && IS_FREE (RIGHT crt) r1.2 then
          let t := count_paths_noprune g fuel (RIGHT crt) (length+1)
                     (r1.2.set (RIGHT crt) true)
          (t.1, t.2.set (RIGHT crt) false)
        else (0, r1.2)
      let r3 :=
        if CAN_GO_DOWN g.width g.height crt && IS_FREE (DOWN g.width crt) r2.2 then
          let t := count_paths_noprune g fuel (DOWN g.width crt) (length+1)
                     (r2.2.set (DOWN g.width crt) true)
          (t.1, t.2.set (DOWN g.width crt) false)
        else (0, r2.2)
      let r4 :=
        if CAN_GO_LEFT g.width crt && IS_FREE (LEFT crt) r3.2 then
          let t := count_paths_noprune g fuel (LEFT crt) (length+1)
                     (r3.2.set (LEFT crt) true)
          (t.1, t.2.set (LEFT crt) false)
        else (0, r3.2)
      (r1.1 + r2.1 + r3.1 + r4.1, r4.2)

/-- The unpruned search run exactly as `main` would run the pruned one. -/
def main_run_noprune (w h : Nat) (cells : List Nat) : Int :=
  let c := main_init w h cells
  (count_paths_noprune ⟨w, h, c.endPos, c.path_length⟩ (w * h + 1) c.start 1 c.visited).1

/-!
## The specification side

The spec describes the answer as the number of Hamiltonian paths from the
Start cell to the End cell: sequences of cells that start at Start, end at
End, visit every non-Blocked cell exactly once and move only between
horizontally or vertically adjacent in-bounds cells.  These definitions are
written from that description (grid adjacency via row/column coordinates),
independently of the C macros; `step_eq_adjacent` below relates the two.
-/

/-- Cells `a` and `b` of a width-`w` grid are horizontally or vertically
adjacent: same row and columns differing by one, or same column and rows
differing by one (row of `i` is `i / w`, column is `i % w`). -/
def adjacent (w a b : Nat) : Bool :=
  (a / w == b / w && (a % w + 1 == b % w || b % w + 1 == a % w))
  || (a % w == b % w && (a / w + 1 == b / w || b / w + 1 == a / w))

/-- Every consecutive pair of the sequence is `adjacent`. -/
def adjChain (w : Nat) : List Nat → Bool
  | [] => true
  | [_] => true
  | a :: b :: rest => adjacent w a b && adjChain w (b :: rest)

/-- All sequences of `k` cells drawn from `{0, …, n-1}` (with repetition);
the candidate pool from which paths are selected by filtering.  It lists
every such sequence exactly once (`allLists_nodup`). -/
def allLists (n : Nat) : Nat → List (List Nat)
  | 0 => [[]]
  | k+1 => (List.range n).flatMap fun d => (allLists n k).map fun p => d :: p

/-- `q` is a Hamiltonian duct path of the `w × h` grid described by the
row-major cell values `cells`, from cell `s` to cell `e`: nonempty, starts
at `s`, ends at `e`, repeats no cell, stays in bounds and on non-Blocked
cells, covers every non-Blocked cell, and moves only between adjacent
cells.  (The conditions force `q` to have exactly one cell per non-Blocked
value, so its length is the number of cell values other than `1`.) -/
def isHamPath (w h : Nat) (cells : List Nat) (s e : Nat) (q : List Nat) : Bool :=
  !q.isEmpty && q.headD 0 == s && q.getLastD 0 == e && decide q.Nodup
  && q.all (fun i => decide (i < w * h) && cells.getD i 0 != 1)
  && ((List.range (w * h)).all fun i => cells.getD i 0 == 1 || q.contains i)
  && adjChain w q

/-- The number of Hamiltonian duct paths from `s` to `e`. -/
def hamCount (w h : Nat) (cells : List Nat) (s e : Nat) : Nat :=
  (allLists (w * h) (cells.countP fun c => c ≠ 1)).countP (isHamPath w h cells s e)

/-- A well-formed input in the sense of the spec: positive dimensions, one
cell value per cell, every value in `{0,1,2,3}`, exactly one Start (`2`)
and exactly one End (`3`) marker (being distinct cells, Start ≠ End). -/
def ValidGrid (w h : Nat) (cells : List Nat) : Prop :=
  0 < w ∧ 0 < h ∧ cells.length = w * h ∧ (∀ c ∈ cells, c ≤ 3)
  ∧ cells.count 2 = 1 ∧ cells.count 3 = 1

instance (w h : Nat) (cells : List Nat) : Decidable (ValidGrid w h cells) := by
  unfold ValidGrid; infer_instance

/-!
Intermediate spec for the recursion: a *completion* of a search state
`(v, crt, length)` is the list of cells the search still has to append.
-/

/-- One move of the searched duct: the four guarded direction targets of
the program (`UP`, `RIGHT`, `DOWN`, `LEFT` with their bounds checks). -/
def step (w h a b : Nat) : Bool :=
  (CAN_GO_UP w a && b == UP w a)
  || (CAN_GO_RIGHT w h a && b == RIGHT a)
  || (CAN_GO_DOWN w h a && b == DOWN w a)
  || (CAN_GO_LEFT w a && b == LEFT a)

/-- Every consecutive pair (starting from `crt`) is a `step`. -/
def stepChain (w h : Nat) (crt : Nat) : List Nat → Bool
  | [] => true
  | d :: rest => step w h crt d && stepChain w h d rest

/-- `p` completes the search state `(v, crt, length)` into a counted path:
a chain of moves from `crt` through pairwise-distinct cells that are free
in `v`, of exactly the length still missing, ending at the End cell. -/
def isCompletion (g : Grid) (v : List Bool) (crt length : Nat) (p : List Nat) : Bool :=
  stepChain g.width g.height crt p && p.all (fun d => IS_FREE d v)
  && decide p.Nodup && (length + p.length == g.path_length)
  && (p.getLastD crt == g.endPos)

/-- The number of completions of a search state. -/
def numCompletions (g : Grid) (v : List Bool) (crt length : Nat) : Nat :=
  (allLists (g.width * g.height) (g.path_length - length)).countP
    (isCompletion g v crt length)

/-- The update one cell value applies to the loop state (the `switch`
followed by the `path_length` increment). -/
def cell_update (i crt : Nat) (s : Conf) : Conf :=
  let s :=
    match crt with
    | 1 => { s with visited := s.visited.set i true }
    | 2 => { s with start := i, visited := s.visited.set i true }
    | 3 => { s with endPos := i }
    | _ => s
  if crt ≠ 1 then { s with path_length := s.path_length + 1 } else s

/-- The spec's description of the available degree of cell `i`: the number
of in-bounds grid-neighbours of `i` (reached by one of the four guarded
moves) that are currently unvisited or equal to the frontier `crt`. -/
def specAvailDegree (g : Grid) (v : List Bool) (crt i : Nat) : Nat :=
  ((Finset.range (g.width * g.height)).filter
    fun m => step g.width g.height i m = true ∧ (IS_FREE m v = true ∨ m = crt)).card

/-- SearchInv packages the facts valid search states satisfy: visited array of
board size, frontier in range and marked visited, and free count matching
the length still missing. -/
def SearchInv (g : Grid) (v : List Bool) (crt length : Nat) : Prop :=
  v.length = g.width * g.height ∧ crt < g.width * g.height
  ∧ IS_FREE crt v = false ∧ length + freeCount v = g.path_length

/-- The spec's visited-set invariant: `v` marks exactly the cells on the
current partial path plus the Blocked cells. -/
def VisitedInvariant (cells : List Nat) (path : List Nat) (v : List Bool) : Prop :=
  v.length = cells.length
  ∧ ∀ i, i < cells.length →
      (v.getD i true = true ↔ (i ∈ path ∨ cells.getD i 0 = 1))

instance (cells path : List Nat) (v : List Bool) :
    Decidable (VisitedInvariant cells path v) := by
  unfold VisitedInvariant
  infer_instance


/-!
## Basic facts about the visited array
-/

lemma IS_FREE_iff {v : List Bool} {d : Nat} :
    IS_FREE d v = true ↔ d < v.length ∧ v.getD d true = false := by
  unfold IS_FREE
  rcases Nat.lt_or_ge d v.length with h | h
  · simp [List.getD_eq_getElem?_getD, List.getElem?_eq_getElem h, h]
  · simp [List.getD_eq_getElem?_getD, List.getElem?_eq_none_iff.2 h, Nat.not_lt.2 h]

lemma getD_set_self {v : List Bool} {d : Nat} (b dflt : Bool) (h : d < v.length) :
    (v.set d b).getD d dflt = b := by
  simp [List.getD_eq_getElem?_getD, List.getElem?_set_self', List.getElem?_eq_getElem h]

lemma getD_set_ne {v : List Bool} {d j : Nat} (b dflt : Bool) (h : d ≠ j) :
    (v.set d b).getD j dflt = v.getD j dflt := by
  simp [List.getD_eq_getElem?_getD, List.getElem?_set_ne h]

/-- Writing back the value a cell already has leaves the array unchanged. -/
lemma set_same {v : List Bool} {d : Nat} {b : Bool} (h : v.getD d true = b)
    (hd : d < v.length) : v.set d b = v := by
  apply List.ext_getElem?
  intro n
  rcases eq_or_ne d n with rfl | hne
  · rw [List.getElem?_set_self', List.getElem?_eq_getElem hd]
    rw [List.getD_eq_getElem?_getD, List.getElem?_eq_getElem hd] at h
    simp [← h]
  · rw [List.getElem?_set_ne hne]

/-- Marking a free cell and unmarking it restores the array exactly. -/
lemma set_restore {v : List Bool} {d : Nat} (h : IS_FREE d v = true) :
    (v.set d true).set d false = v := by
  obtain ⟨hd, hv⟩ := IS_FREE_iff.1 h
  rw [List.set_set]
  exact set_same hv hd

/-!
## State restoration: the search returns the visited array it received
-/

/-- `count_paths` restores the visited array: whatever marking happens in
the subtree is undone before returning. -/
lemma count_paths_snd (g : Grid) :
    ∀ fuel crt length v, (count_paths g fuel crt length v).2 = v := by
  intro fuel
  induction fuel with
  | zero => intro crt length v; rfl
  | succ fuel ih =>
    intro crt length v
    rw [count_paths]
    split
    · rfl
    split
    · rfl
    dsimp only
    split
    case isTrue h1 =>
      rw [ih, set_restore (Bool.and_elim_right h1)]
      split
      case isTrue h2 =>
        rw [ih, set_restore (Bool.and_elim_right h2)]
        split
        case isTrue h3 =>
          rw [ih, set_restore (Bool.and_elim_right h3)]
          split
          case isTrue h4 => rw [ih, set_restore (Bool.and_elim_right h4)]
          case isFalse _ => rfl
        case isFalse _ =>
          split
          case isTrue h4 => rw [ih, set_restore (Bool.and_elim_right h4)]
          case isFalse _ => rfl
      case isFalse _ =>
        split
        case isTrue h3 =>
          rw [ih, set_restore (Bool.and_elim_right h3)]
          split
          case isTrue h4 => rw [ih, set_restore (Bool.and_elim_right h4)]
          case isFalse _ => rfl
        case isFalse _ =>
          split
          case isTrue h4 => rw [ih, set_restore (Bool.and_elim_right h4)]
          case isFalse _ => rfl
    case isFalse _ =>
      split
      case isTrue h2 =>
        rw [ih, set_restore (Bool.and_elim_right h2)]
        split
        case isTrue h3 =>
          rw [ih, set_restore (Bool.and_elim_right h3)]
          split
          case isTrue h4 => rw [ih, set_restore (Bool.and_elim_right h4)]
          case isFalse _ => rfl
        case isFalse _ =>
          split
          case isTrue h4 => rw [ih, set_restore (Bool.and_elim_right h4)]
          case isFalse _ => rfl
      case isFalse _ =>
        split
        case isTrue h3 =>
          rw [ih, set_restore (Bool.and_elim_right h3)]
          split
          case isTrue h4 => rw [ih, set_restore (Bool.and_elim_right h4)]
          case isFalse _ => rfl
        case isFalse _ =>
          split
          case isTrue h4 => rw [ih, set_restore (Bool.and_elim_right h4)]
          case isFalse _ => rfl

/-- The body of `count_paths` written with `go_into_room` at the four call
sites, exactly as in the C source (definitional equality). -/
lemma count_paths_eq_go (g : Grid) (fuel crt length : Nat) (v : List Bool) :
    count_paths g (fuel+1) crt length v =
    (if crt == g.endPos && length == g.path_length then (1, v)
     else if path_has_rooms_with_degree_lt_2 g v crt then (0, v)
     else
       let r1 := if CAN_GO_UP g.width crt && IS_FREE (UP g.width crt) v
                 then go_into_room g fuel (UP g.width crt) (length+1) v else (0, v)
       let r2 := if CAN_GO_RIGHT g.width g.height crt && IS_FREE (RIGHT crt) r1.2
                 then go_into_room g fuel (RIGHT crt) (length+1) r1.2 else (0, r1.2)
       let r3 := if CAN_GO_DOWN g.width g.height crt && IS_FREE (DOWN g.width crt) r2.2
                 then go_into_room g fuel (DOWN g.width crt) (length+1) r2.2 else (0, r2.2)
       let r4 := if CAN_GO_LEFT g.width crt && IS_FREE (LEFT crt) r3.2
                 then go_into_room g fuel (LEFT crt) (length+1) r3.2 else (0, r3.2)
       (r1.1 + r2.1 + r3.1 + r4.1, r4.2)) := rfl

/-- A single direction branch of the body, rewritten using restoration:
it contributes its count and leaves the visited array as it was. -/
lemma branch_eq (g : Grid) (fuel d length : Nat) (v : List Bool) (c : Bool) :
    (if c && IS_FREE d v then
       let t := count_paths g fuel d length (v.set d true)
       (t.1, t.2.set d false)
     else ((0 : Int), v)) =
    ((if c && IS_FREE d v then
        (count_paths g fuel d length (v.set d true)).1 else 0), v) := by
  rcases hc : (c && IS_FREE d v) with _ | _
  · simp [hc]
  · simp only [hc, if_true, cond_true]
    refine Prod.ext rfl ?_
    dsimp only
    rw [count_paths_snd]
    exact set_restore (Bool.and_elim_right hc)

/-- The recursion equation for `count_paths` in flattened form: each branch
explores its direction on the original visited array (restoration makes the
threading invisible), and the final visited array is the input. -/
lemma count_paths_succ (g : Grid) (fuel crt length : Nat) (v : List Bool) :
    count_paths g (fuel+1) crt length v =
    (if crt == g.endPos && length == g.path_length then ((1 : Int), v)
     else if path_has_rooms_with_degree_lt_2 g v crt then (0, v)
     else
       ((if CAN_GO_UP g.width crt && IS_FREE (UP g.width crt) v then
           (count_paths g fuel (UP g.width crt) (length+1) (v.set (UP g.width crt) true)).1
         else 0)
        + (if CAN_GO_RIGHT g.width g.height crt && IS_FREE (RIGHT crt) v then
           (count_paths g fuel (RIGHT crt) (length+1) (v.set (RIGHT crt) true)).1
         else 0)
        + (if CAN_GO_DOWN g.width g.height crt && IS_FREE (DOWN g.width crt) v then
           (count_paths g fuel (DOWN g.width crt) (length+1) (v.set (DOWN g.width crt) true)).1
         else 0)
        + (if CAN_GO_LEFT g.width crt && IS_FREE (LEFT crt) v then
           (count_paths g fuel (LEFT crt) (length+1) (v.set (LEFT crt) true)).1
         else 0),
       v)) := by
  rw [count_paths]
  split
  · rfl
  split
  · rfl
  dsimp only
  rw [branch_eq]
  dsimp only
  rw [branch_eq]
  dsimp only
  rw [branch_eq]
  dsimp only
  rw [branch_eq]

/-- `count_paths_noprune` restores the visited array as well. -/
lemma count_paths_noprune_snd (g : Grid) :
    ∀ fuel crt length v, (count_paths_noprune g fuel crt length v).2 = v := by
  intro fuel
  induction fuel with
  | zero => intro crt length v; rfl
  | succ fuel ih =>
    intro crt length v
    rw [count_paths_noprune]
    split
    · rfl
    dsimp only
    split
    case isTrue h1 =>
      rw [ih, set_restore (Bool.and_elim_right h1)]
      split
      case isTrue h2 =>
        rw [ih, set_restore (Bool.and_elim_right h2)]
        split
        case isTrue h3 =>
          rw [ih, set_restore (Bool.and_elim_right h3)]
          split
          case isTrue h4 => rw [ih, set_restore (Bool.and_elim_right h4)]
          case isFalse _ => rfl
        case isFalse _ =>
          split
          case isTrue h4 => rw [ih, set_restore (Bool.and_elim_right h4)]
          case isFalse _ => rfl
      case isFalse _ =>
        split
        case isTrue h3 =>
          rw [ih, set_restore (Bool.and_elim_right h3)]
          split
          case isTrue h4 => rw [ih, set_restore (Bool.and_elim_right h4)]
          case isFalse _ => rfl
        case isFalse _ =>
          split
          case isTrue h4 => rw [ih, set_restore (Bool.and_elim_right h4)]
          case isFalse _ => rfl
    case isFalse _ =>
      split
      case isTrue h2 =>
        rw [ih, set_restore (Bool.and_elim_right h2)]
        split
        case isTrue h3 =>
          rw [ih, set_restore (Bool.and_elim_right h3)]
          split
          case isTrue h4 => rw [ih, set_restore (Bool.and_elim_right h4)]
          case isFalse _ => rfl
        case isFalse _ =>
          split
          case isTrue h4 => rw [ih, set_restore (Bool.and_elim_right h4)]
          case isFalse _ => rfl
      case isFalse _ =>
        split
        case isTrue h3 =>
          rw [ih, set_restore (Bool.and_elim_right h3)]
          split
          case isTrue h4 => rw [ih, set_restore (Bool.and_elim_right h4)]
          case isFalse _ => rfl
        case isFalse _ =>
          split
          case isTrue h4 => rw [ih, set_restore (Bool.and_elim_right h4)]
          case isFalse _ => rfl

/-- Direction branch of the unpruned body, with restoration applied. -/
lemma branch_eq_noprune (g : Grid) (fuel d length : Nat) (v : List Bool) (c : Bool) :
    (if c && IS_FREE d v then
       let t := count_paths_noprune g fuel d length (v.set d true)
       (t.1, t.2.set d false)
     else ((0 : Int), v)) =
    ((if c && IS_FREE d v then
        (count_paths_noprune g fuel d length (v.set d true)).1 else 0), v) := by
  rcases hc : (c && IS_FREE d v) with _ | _
  · simp [hc]
  · simp only [hc, if_true, cond_true]
    refine Prod.ext rfl ?_
    dsimp only
    rw [count_paths_noprune_snd]
    exact set_restore (Bool.and_elim_right hc)

/-- The recursion equation for `count_paths_noprune` in flattened form. -/
lemma count_paths_noprune_succ (g : Grid) (fuel crt length : Nat) (v : List Bool) :
    count_paths_noprune g (fuel+1) crt length v =
    (if crt == g.endPos && length == g.path_length then ((1 : Int), v)
     else
       ((if CAN_GO_UP g.width crt && IS_FREE (UP g.width crt) v then
           (count_paths_noprune g fuel (UP g.width crt) (length+1)
             (v.set (UP g.width crt) true)).1
         else 0)
        + (if CAN_GO_RIGHT g.width g.height crt && IS_FREE (RIGHT crt) v then
           (count_paths_noprune g fuel (RIGHT crt) (length+1)
             (v.set (RIGHT crt) true)).1
         else 0)
        + (if CAN_GO_DOWN g.width g.height crt && IS_FREE (DOWN g.width crt) v then
           (count_paths_noprune g fuel (DOWN g.width crt) (length+1)
             (v.set (DOWN g.width crt) true)).1
         else 0)
        + (if CAN_GO_LEFT g.width crt && IS_FREE (LEFT crt) v then
           (count_paths_noprune g fuel (LEFT crt) (length+1)
             (v.set (LEFT crt) true)).1
         else 0),
       v)) := by
  rw [count_paths_noprune]
  split
  · rfl
  dsimp only
  rw [branch_eq_noprune]
  dsimp only
  rw [branch_eq_noprune]
  dsimp only
  rw [branch_eq_noprune]
  dsimp only
  rw [branch_eq_noprune]

/-- Result counts are never negative. -/
lemma count_paths_fst_nonneg (g : Grid) :
    ∀ fuel crt length v, 0 ≤ (count_paths g fuel crt length v).1 := by
  intro fuel
  induction fuel with
  | zero => intro crt length v; exact le_refl 0
  | succ fuel ih =>
    intro crt length v
    rw [count_paths_succ]
    split
    · exact zero_le_one
    split
    · exact le_refl 0
    have hb : ∀ (c : Bool) (d : Nat),
        (0 : Int) ≤ if c && IS_FREE d v then
          (count_paths g fuel d (length+1) (v.set d true)).1 else 0 := by
      intro c d
      split
      · exact ih _ _ _
      · exact le_refl 0
    exact add_nonneg (add_nonneg (add_nonneg (hb _ _) (hb _ _)) (hb _ _)) (hb _ _)

/-!
## Fuel is irrelevant beyond the number of free cells
-/

lemma freeCount_pos {v : List Bool} {d : Nat} (h : IS_FREE d v = true) :
    0 < freeCount v := by
  obtain ⟨hd, hv⟩ := IS_FREE_iff.1 h
  refine Finset.card_pos.2 ⟨d, ?_⟩
  simp only [freeCount, Finset.mem_filter, Finset.mem_range]
  exact ⟨hd, hv⟩

lemma freeCount_set_true {v : List Bool} {d : Nat} (h : IS_FREE d v = true) :
    freeCount (v.set d true) = freeCount v - 1 := by
  obtain ⟨hd, hv⟩ := IS_FREE_iff.1 h
  have hset : ((Finset.range (v.set d true).length).filter
      fun i => (v.set d true).getD i true = false) =
      ((Finset.range v.length).filter fun i => v.getD i true = false).erase d := by
    ext i
    simp only [Finset.mem_filter, Finset.mem_range, Finset.mem_erase, List.length_set]
    constructor
    · rintro ⟨hi, hfree⟩
      rcases eq_or_ne d i with rfl | hne
      · rw [getD_set_self _ _ hd] at hfree; exact absurd hfree (by simp)
      · rw [getD_set_ne _ _ hne] at hfree
        exact ⟨Ne.symm hne, hi, hfree⟩
    · rintro ⟨hne, hi, hfree⟩
      rw [getD_set_ne _ _ (Ne.symm hne)]
      exact ⟨hi, hfree⟩
  have hmem : d ∈ (Finset.range v.length).filter fun i => v.getD i true = false := by
    simp only [Finset.mem_filter, Finset.mem_range]
    exact ⟨hd, hv⟩
  unfold freeCount
  rw [hset, Finset.card_erase_of_mem hmem]

lemma freeCount_le (v : List Bool) : freeCount v ≤ v.length := by
  unfold freeCount
  calc ((Finset.range v.length).filter fun i => v.getD i true = false).card
      ≤ (Finset.range v.length).card := Finset.card_filter_le _ _
    _ = v.length := Finset.card_range _

/-- Any two fuels above the number of free cells give the same run: the
search terminates within `freeCount v` recursive levels. -/
lemma count_paths_fuel (g : Grid) :
    ∀ f1, ∀ f2 crt length v, freeCount v < f1 → freeCount v < f2 →
      count_paths g f1 crt length v = count_paths g f2 crt length v := by
  intro f1
  induction f1 with
  | zero => intro f2 crt length v h1 _; exact absurd h1 (Nat.not_lt_zero _)
  | succ a ih =>
    intro f2 crt length v h1 h2
    match f2, h2 with
    | b+1, h2 =>
      rw [count_paths_succ, count_paths_succ]
      split
      · rfl
      split
      · rfl
      have hbr : ∀ (c : Bool) (d : Nat),
          (if c && IS_FREE d v then
            (count_paths g a d (length+1) (v.set d true)).1 else 0) =
          (if c && IS_FREE d v then
            (count_paths g b d (length+1) (v.set d true)).1 else 0) := by
        intro c d
        rcases hc : (c && IS_FREE d v) with _ | _
        · simp
        · have hfree := Bool.and_elim_right hc
          have hlt := freeCount_pos hfree
          have hfc : freeCount (v.set d true) = freeCount v - 1 :=
            freeCount_set_true hfree
          simp only [cond_true, if_true]
          rw [ih b d (length+1) (v.set d true) (by omega) (by omega)]
      rw [hbr _ _, hbr _ _, hbr _ _, hbr _ _]

/-- Same for the unpruned search. -/
lemma count_paths_noprune_fuel (g : Grid) :
    ∀ f1, ∀ f2 crt length v, freeCount v < f1 → freeCount v < f2 →
      count_paths_noprune g f1 crt length v = count_paths_noprune g f2 crt length v := by
  intro f1
  induction f1 with
  | zero => intro f2 crt length v h1 _; exact absurd h1 (Nat.not_lt_zero _)
  | succ a ih =>
    intro f2 crt length v h1 h2
    match f2, h2 with
    | b+1, h2 =>
      rw [count_paths_noprune_succ, count_paths_noprune_succ]
      split
      · rfl
      have hbr : ∀ (c : Bool) (d : Nat),
          (if c && IS_FREE d v then
            (count_paths_noprune g a d (length+1) (v.set d true)).1 else 0) =
          (if c && IS_FREE d v then
            (count_paths_noprune g b d (length+1) (v.set d true)).1 else 0) := by
        intro c d
        rcases hc : (c && IS_FREE d v) with _ | _
        · simp
        · have hfree := Bool.and_elim_right hc
          have hlt := freeCount_pos hfree
          have hfc : freeCount (v.set d true) = freeCount v - 1 :=
            freeCount_set_true hfree
          simp only [cond_true, if_true]
          rw [ih b d (length+1) (v.set d true) (by omega) (by omega)]
      rw [hbr _ _, hbr _ _, hbr _ _, hbr _ _]

/-!
## Subtrees below a visited End cell contribute nothing
-/

lemma getD_set_true_self (v : List Bool) (d : Nat) :
    (v.set d true).getD d true = true := by
  rcases Nat.lt_or_ge d v.length with hd | hd
  · exact getD_set_self _ _ hd
  · rw [List.set_eq_of_length_le hd, List.getD_eq_default]
    exact hd

/-- When the End cell is already marked visited and the current state is not
the accepting one, the whole subtree counts zero paths. -/
lemma count_paths_end_visited (g : Grid) :
    ∀ fuel crt length v, v.getD g.endPos true = true →
      (crt = g.endPos → length ≠ g.path_length) →
      (count_paths g fuel crt length v).1 = 0 := by
  intro fuel
  induction fuel with
  | zero => intro crt length v _ _; rfl
  | succ fuel ih =>
    intro crt length v hend hterm
    rw [count_paths_succ]
    split
    case isTrue h =>
      have hcrt : crt = g.endPos := eq_of_beq (Bool.and_elim_left h)
      have hlen : length = g.path_length := eq_of_beq (Bool.and_elim_right h)
      exact absurd hlen (hterm hcrt)
    split
    · rfl
    have hbr : ∀ (c : Bool) (d : Nat),
        (if c && IS_FREE d v then
          (count_paths g fuel d (length+1) (v.set d true)).1 else 0) = 0 := by
      intro c d
      rcases hc : (c && IS_FREE d v) with _ | _
      · simp
      · have hfree := Bool.and_elim_right hc
        have hdne : d ≠ g.endPos := by
          intro hde
          obtain ⟨_, hv⟩ := IS_FREE_iff.1 hfree
          rw [hde, hend] at hv
          exact Bool.noConfusion hv
        simp only [cond_true, if_true]
        refine ih d (length+1) (v.set d true) ?_ ?_
        · rw [getD_set_ne _ _ hdne]; exact hend
        · intro hde; exact absurd hde hdne
    rw [hbr _ _, hbr _ _, hbr _ _, hbr _ _]
    rfl

/-!
## What `main`'s input loop computes
-/


lemma scan_cells_cons (i crt : Nat) (rest : List Nat) (s : Conf) :
    scan_cells i (crt :: rest) s = scan_cells (i+1) rest (cell_update i crt s) := rfl

lemma cell_update_start (i crt : Nat) (s : Conf) :
    (cell_update i crt s).start = if crt = 2 then i else s.start := by
  rcases crt with _ | _ | _ | _ | k <;> simp [cell_update]

lemma cell_update_endPos (i crt : Nat) (s : Conf) :
    (cell_update i crt s).endPos = if crt = 3 then i else s.endPos := by
  rcases crt with _ | _ | _ | _ | k <;> simp [cell_update]

lemma cell_update_path_length (i crt : Nat) (s : Conf) :
    (cell_update i crt s).path_length =
    if crt = 1 then s.path_length else s.path_length + 1 := by
  rcases crt with _ | _ | _ | _ | k <;> simp [cell_update]

lemma cell_update_visited (i crt : Nat) (s : Conf) :
    (cell_update i crt s).visited =
    if crt = 1 ∨ crt = 2 then s.visited.set i true else s.visited := by
  rcases crt with _ | _ | _ | _ | k <;> simp [cell_update]

lemma scan_visited_length :
    ∀ (cells : List Nat) (i : Nat) (s : Conf),
      (scan_cells i cells s).visited.length = s.visited.length := by
  intro cells
  induction cells with
  | nil => intro i s; rfl
  | cons c rest ih =>
    intro i s
    rw [scan_cells_cons, ih]
    rw [cell_update_visited]
    split <;> simp

lemma scan_path_length :
    ∀ (cells : List Nat) (i : Nat) (s : Conf),
      (scan_cells i cells s).path_length =
        s.path_length + cells.countP (fun c => c ≠ 1) := by
  intro cells
  induction cells with
  | nil => intro i s; rfl
  | cons c rest ih =>
    intro i s
    rw [scan_cells_cons, ih, List.countP_cons, cell_update_path_length]
    rcases eq_or_ne c 1 with rfl | hc
    · simp
    · simp [hc]
      omega

lemma scan_start_of_not_mem :
    ∀ (cells : List Nat) (i : Nat) (s : Conf), 2 ∉ cells →
      (scan_cells i cells s).start = s.start := by
  intro cells
  induction cells with
  | nil => intro i s _; rfl
  | cons c rest ih =>
    intro i s hmem
    rw [scan_cells_cons, ih _ _ (fun h => hmem (List.mem_cons_of_mem _ h))]
    rw [cell_update_start]
    have hc : c ≠ 2 := fun h => hmem (h ▸ List.mem_cons_self _ _)
    simp [hc]

lemma scan_endPos_of_not_mem :
    ∀ (cells : List Nat) (i : Nat) (s : Conf), 3 ∉ cells →
      (scan_cells i cells s).endPos = s.endPos := by
  intro cells
  induction cells with
  | nil => intro i s _; rfl
  | cons c rest ih =>
    intro i s hmem
    rw [scan_cells_cons, ih _ _ (fun h => hmem (List.mem_cons_of_mem _ h))]
    rw [cell_update_endPos]
    have hc : c ≠ 3 := fun h => hmem (h ▸ List.mem_cons_self _ _)
    simp [hc]

lemma scan_start :
    ∀ (cells : List Nat) (i : Nat) (s : Conf) (j : Nat),
      cells.count 2 = 1 → j < cells.length → cells.getD j 0 = 2 →
      (scan_cells i cells s).start = i + j := by
  intro cells
  induction cells with
  | nil => intro i s j _ hj _; exact absurd hj (Nat.not_lt_zero _)
  | cons c rest ih =>
    intro i s j hcount hj hval
    rw [List.count_cons] at hcount
    rcases eq_or_ne c 2 with rfl | hc
    · simp only [beq_self_eq_true, if_true] at hcount
      have hrest : rest.count 2 = 0 := by omega
      have hnot : 2 ∉ rest := by
        intro hmem
        have := List.count_pos_iff.2 hmem
        omega
      have hj0 : j = 0 := by
        by_contra hne
        have h1 : 0 < j := Nat.pos_of_ne_zero hne
        have : rest.getD (j-1) 0 = 2 := by
          rw [← hval]
          rcases j with _ | j'
          · omega
          · simp [List.getD_cons_succ]
        have hlt : j - 1 < rest.length := by
          simp at hj; omega
        have : (2 : Nat) ∈ rest := by
          rw [← this]
          rw [List.getD_eq_getElem _ _ hlt]
          exact List.getElem_mem _
        exact hnot this
      subst hj0
      rw [scan_cells_cons, scan_start_of_not_mem _ _ _ hnot]
      rw [cell_update_start]
      simp
    · have hcount' : rest.count 2 = 1 := by
        have : (c == 2) = false := beq_eq_false_iff_ne.2 hc
        rw [this] at hcount
        simpa using hcount
      have hj0 : j ≠ 0 := by
        intro h
        subst h
        simp [List.getD_cons_zero] at hval
        exact hc hval
      have hval' : rest.getD (j-1) 0 = 2 := by
        rcases j with _ | j'
        · omega
        · simpa [List.getD_cons_succ] using hval
      have hj' : j - 1 < rest.length := by
        simp at hj; omega
      rw [scan_cells_cons, ih _ _ _ hcount' hj' hval']
      omega

lemma scan_endPos :
    ∀ (cells : List Nat) (i : Nat) (s : Conf) (j : Nat),
      cells.count 3 = 1 → j < cells.length → cells.getD j 0 = 3 →
      (scan_cells i cells s).endPos = i + j := by
  intro cells
  induction cells with
  | nil => intro i s j _ hj _; exact absurd hj (Nat.not_lt_zero _)
  | cons c rest ih =>
    intro i s j hcount hj hval
    rw [List.count_cons] at hcount
    rcases eq_or_ne c 3 with rfl | hc
    · simp only [beq_self_eq_true, if_true] at hcount
      have hrest : rest.count 3 = 0 := by omega
      have hnot : 3 ∉ rest := by
        intro hmem
        have := List.count_pos_iff.2 hmem
        omega
      have hj0 : j = 0 := by
        by_contra hne
        have h1 : 0 < j := Nat.pos_of_ne_zero hne
        have : rest.getD (j-1) 0 = 3 := by
          rw [← hval]
          rcases j with _ | j'
          · omega
          · simp [List.getD_cons_succ]
        have hlt : j - 1 < rest.length := by
          simp at hj; omega
        have : (3 : Nat) ∈ rest := by
          rw [← this]
          rw [List.getD_eq_getElem _ _ hlt]
          exact List.getElem_mem _
        exact hnot this
      subst hj0
      rw [scan_cells_cons, scan_endPos_of_not_mem _ _ _ hnot]
      rw [cell_update_endPos]
      simp
    · have hcount' : rest.count 3 = 1 := by
        have : (c == 3) = false := beq_eq_false_iff_ne.2 hc
        rw [this] at hcount
        simpa using hcount
      have hj0 : j ≠ 0 := by
        intro h
        subst h
        simp [List.getD_cons_zero] at hval
        exact hc hval
      have hval' : rest.getD (j-1) 0 = 3 := by
        rcases j with _ | j'
        · omega
        · simpa [List.getD_cons_succ] using hval
      have hj' : j - 1 < rest.length := by
        simp at hj; omega
      rw [scan_cells_cons, ih _ _ _ hcount' hj' hval']
      omega

lemma scan_visited_getD :
    ∀ (cells : List Nat) (i : Nat) (s : Conf) (j : Nat) (dflt : Bool),
      i + cells.length ≤ s.visited.length →
      (scan_cells i cells s).visited.getD j dflt =
      if i ≤ j ∧ j < i + cells.length
          ∧ (cells.getD (j-i) 0 = 1 ∨ cells.getD (j-i) 0 = 2)
      then true else s.visited.getD j dflt := by
  intro cells
  induction cells with
  | nil =>
    intro i s j dflt _
    rw [if_neg]
    · rfl
    rintro ⟨a, b, _⟩
    simp only [List.length_nil] at b
    omega
  | cons c rest ih =>
    intro i s j dflt hlen
    simp only [List.length_cons] at hlen
    have hi : i < s.visited.length := by omega
    rw [scan_cells_cons]
    have hlen' : (i+1) + rest.length ≤ (cell_update i c s).visited.length := by
      rw [cell_update_visited]
      split
      · rw [List.length_set]; omega
      · omega
    rw [ih _ _ _ _ hlen']
    simp only [List.length_cons]
    rcases eq_or_ne j i with rfl | hne
    · have hfirst : ¬ (j+1 ≤ j) := by omega
      simp only [hfirst, false_and, if_false]
      have hsub : j - j = 0 := by omega
      have hbound : j ≤ j ∧ j < j + (rest.length + 1) := ⟨le_refl j, by omega⟩
      rw [cell_update_visited]
      by_cases h12 : c = 1 ∨ c = 2
      · rw [if_pos h12]
        have hget : (c :: rest).getD (j-j) 0 = c := by rw [hsub]; rfl
        rw [if_pos ⟨hbound.1, hbound.2, by rw [hget]; exact h12⟩]
        exact getD_set_self _ _ hi
      · rw [if_neg h12, if_neg ?_]
        intro hcond
        have hget : (c :: rest).getD (j-j) 0 = c := by rw [hsub]; rfl
        rw [hget] at hcond
        exact h12 hcond.2.2
    · have hcell : (cell_update i c s).visited.getD j dflt = s.visited.getD j dflt := by
        rw [cell_update_visited]
        split
        · exact getD_set_ne _ _ (Ne.symm hne)
        · rfl
      rw [hcell]
      rcases Nat.lt_or_ge j i with hji | hji
      · have c1 : ¬ (i+1 ≤ j) := by omega
        have c2 : ¬ (i ≤ j) := by omega
        simp [c1, c2]
      · have hgt : i + 1 ≤ j := by omega
        have hsub : j - i = (j - (i+1)) + 1 := by omega
        have hget : (c :: rest).getD (j-i) 0 = rest.getD (j-(i+1)) 0 := by
          rw [hsub]; rfl
        rw [hget]
        refine if_congr ?_ rfl rfl
        constructor
        · rintro ⟨a, b, hc⟩; exact ⟨by omega, by omega, hc⟩
        · rintro ⟨a, b, hc⟩; exact ⟨by omega, by omega, hc⟩

lemma main_init_visited_length (w h : Nat) (cells : List Nat) :
    (main_init w h cells).visited.length = w * h := by
  unfold main_init
  rw [scan_visited_length]
  exact List.length_replicate _ _

lemma main_init_path_length (w h : Nat) (cells : List Nat) :
    (main_init w h cells).path_length = cells.countP (fun c => c ≠ 1) := by
  unfold main_init
  rw [scan_path_length]
  simp

lemma main_init_start {w h : Nat} {cells : List Nat} {s : Nat}
    (hcount : cells.count 2 = 1) (hs : s < cells.length)
    (hval : cells.getD s 0 = 2) :
    (main_init w h cells).start = s := by
  unfold main_init
  rw [scan_start cells 0 _ s hcount hs hval]
  omega

lemma main_init_endPos {w h : Nat} {cells : List Nat} {e : Nat}
    (hcount : cells.count 3 = 1) (he : e < cells.length)
    (hval : cells.getD e 0 = 3) :
    (main_init w h cells).endPos = e := by
  unfold main_init
  rw [scan_endPos cells 0 _ e hcount he hval]
  omega

lemma main_init_visited_getD {w h : Nat} {cells : List Nat}
    (hlen : cells.length = w * h) {j : Nat} (hj : j < w * h) (dflt : Bool) :
    (main_init w h cells).visited.getD j dflt =
    (cells.getD j 0 == 1 || cells.getD j 0 == 2) := by
  unfold main_init
  rw [scan_visited_getD cells 0 _ j dflt
    (by rw [List.length_replicate]; omega)]
  by_cases hd : cells.getD j 0 = 1 ∨ cells.getD j 0 = 2
  · rw [if_pos ⟨Nat.zero_le j, by omega, by rw [Nat.sub_zero]; exact hd⟩]
    rcases hd with hd | hd <;> rw [hd] <;> rfl
  · rw [if_neg (by rintro ⟨_, _, hc⟩; exact hd (by rwa [Nat.sub_zero] at hc))]
    push_neg at hd
    have h1 : (cells.getD j 0 == 1) = false := beq_eq_false_iff_ne.2 hd.1
    have h2 : (cells.getD j 0 == 2) = false := beq_eq_false_iff_ne.2 hd.2
    rw [h1, h2]
    have : j < (List.replicate (w*h) false).length := by
      rw [List.length_replicate]; omega
    rw [List.getD_eq_getElem _ _ this, List.getElem_replicate]
    rfl

/-- In a list with exactly one occurrence of `a`, two in-range positions
holding `a` coincide. -/
lemma count_one_unique :
    ∀ (l : List Nat) (a : Nat), l.count a = 1 →
      ∀ j k, j < l.length → k < l.length →
        l.getD j 0 = a → l.getD k 0 = a → j = k := by
  intro l
  induction l with
  | nil => intro a _ j k hj _ _ _; exact absurd hj (Nat.not_lt_zero _)
  | cons c rest ih =>
    intro a hcount j k hj hk hvj hvk
    rw [List.count_cons] at hcount
    have hmem_of : ∀ m, m < rest.length → rest.getD m 0 = a → a ∈ rest := by
      intro m hm hv
      rw [← hv, List.getD_eq_getElem _ _ hm]
      exact List.getElem_mem _
    rcases eq_or_ne c a with h | hc
    · have hcb : (c == a) = true := beq_iff_eq.2 h
      rw [hcb] at hcount
      simp only [if_true] at hcount
      have hrest : rest.count a = 0 := by omega
      have hnot : a ∉ rest := by
        intro hmem
        have := List.count_pos_iff.2 hmem
        omega
      have hj0 : j = 0 := by
        by_contra hne
        rcases j with _ | j'
        · exact hne rfl
        · exact hnot (hmem_of j' (by simp at hj; omega)
            (by simpa [List.getD_cons_succ] using hvj))
      have hk0 : k = 0 := by
        by_contra hne
        rcases k with _ | k'
        · exact hne rfl
        · exact hnot (hmem_of k' (by simp at hk; omega)
            (by simpa [List.getD_cons_succ] using hvk))
      rw [hj0, hk0]
    · have hcb : (c == a) = false := beq_eq_false_iff_ne.2 hc
      rw [hcb] at hcount
      simp only [Bool.false_eq_true, if_false, Nat.add_zero] at hcount
      rcases j with _ | j'
      · exact absurd (by rw [List.getD_cons_zero] at hvj; exact hvj) hc
      rcases k with _ | k'
      · exact absurd (by rw [List.getD_cons_zero] at hvk; exact hvk) hc
      have := ih a hcount j' k' (by simp at hj; omega) (by simp at hk; omega)
        (by simpa [List.getD_cons_succ] using hvj)
        (by simpa [List.getD_cons_succ] using hvk)
      omega

/-- Counting matching values of a list is counting matching positions. -/
lemma countP_eq_card_filter_range (l : List Nat) (p : Nat → Bool) :
    l.countP p = ((Finset.range l.length).filter fun i => p (l.getD i 0)).card := by
  induction l with
  | nil => simp
  | cons c rest ih =>
    rw [List.countP_cons, Finset.card_filter, List.length_cons,
      Finset.sum_range_succ']
    have hstep : ∀ i, (if p ((c :: rest).getD (i+1) 0) then 1 else 0)
        = if p (rest.getD i 0) then 1 else 0 := by
      intro i; rfl
    simp only [hstep]
    rw [← Finset.card_filter, ← ih]
    rfl

/-- Number of free cells of the visited array built by `main` on a grid
with a unique Start marker: one less than the number of non-Blocked cells
(Start is marked before the search). -/
lemma main_init_freeCount {w h : Nat} {cells : List Nat} {s : Nat}
    (hlen : cells.length = w * h) (hcount : cells.count 2 = 1)
    (hs : s < cells.length) (hvs : cells.getD s 0 = 2) :
    1 + freeCount (main_init w h cells).visited
      = cells.countP (fun c => c ≠ 1) := by
  have hn := main_init_visited_length w h cells
  have hset : ((Finset.range (main_init w h cells).visited.length).filter
      fun i => (main_init w h cells).visited.getD i true = false) =
      ((Finset.range cells.length).filter
        fun i => (decide (cells.getD i 0 ≠ 1) : Bool)).erase s := by
    ext j
    simp only [Finset.mem_filter, Finset.mem_range, Finset.mem_erase, hn]
    constructor
    · rintro ⟨hj, hfree⟩
      rw [main_init_visited_getD hlen hj true] at hfree
      have h1 : cells.getD j 0 ≠ 1 := by
        intro hc; rw [hc] at hfree; exact Bool.noConfusion hfree
      have h2 : cells.getD j 0 ≠ 2 := by
        intro hc; rw [hc] at hfree; exact Bool.noConfusion hfree
      refine ⟨?_, by omega, by simpa using h1⟩
      intro hjs
      exact h2 (hjs ▸ hvs)
    · rintro ⟨hjs, hj, h1⟩
      have h1' : cells.getD j 0 ≠ 1 := by simpa using h1
      have hjn : j < w * h := by omega
      refine ⟨hjn, ?_⟩
      rw [main_init_visited_getD hlen hjn true]
      have h2 : cells.getD j 0 ≠ 2 := by
        intro hc
        exact hjs (count_one_unique cells 2 hcount j s (by omega) hs hc hvs)
      have hb1 : (cells.getD j 0 == 1) = false := beq_eq_false_iff_ne.2 h1'
      have hb2 : (cells.getD j 0 == 2) = false := beq_eq_false_iff_ne.2 h2
      rw [hb1, hb2]
      rfl
  have hmem : s ∈ (Finset.range cells.length).filter
      fun i => (decide (cells.getD i 0 ≠ 1) : Bool) := by
    simp only [Finset.mem_filter, Finset.mem_range]
    exact ⟨hs, by rw [hvs]; simp⟩
  have hcard := Finset.card_erase_of_mem hmem
  have hpos : 0 < ((Finset.range cells.length).filter
      fun i => (decide (cells.getD i 0 ≠ 1) : Bool)).card :=
    Finset.card_pos.2 ⟨s, hmem⟩
  rw [countP_eq_card_filter_range cells (fun c => decide (c ≠ 1))]
  unfold freeCount
  rw [hset, hcard]
  omega

/-- The Start cell is marked visited in the configuration `main` builds. -/
lemma main_init_start_not_free {w h : Nat} {cells : List Nat} {s : Nat}
    (hlen : cells.length = w * h) (hs : s < cells.length)
    (hvs : cells.getD s 0 = 2) :
    IS_FREE s (main_init w h cells).visited = false := by
  unfold IS_FREE
  rw [main_init_visited_getD hlen (by omega) true, hvs]
  rfl

/-!
## Counting over the candidate pool `allLists`
-/

lemma sum_map_range (n : Nat) (F : Nat → Nat) :
    ((List.range n).map F).sum = ∑ d in Finset.range n, F d := by
  induction n with
  | zero => simp
  | succ m ih =>
    rw [List.range_succ, List.map_append, List.sum_append,
      Finset.sum_range_succ, ih]
    simp

/-- Splitting the count over sequences of length `k+1` by their first cell. -/
lemma countP_allLists_succ (n k : Nat) (q : List Nat → Bool) :
    (allLists n (k+1)).countP q
      = ∑ d in Finset.range n, (allLists n k).countP fun p => q (d :: p) := by
  show ((List.range n).flatMap fun d => (allLists n k).map fun p => d :: p).countP q = _
  rw [List.flatMap_def, List.countP_flatten, List.map_map]
  have : ((List.countP q ∘ fun d => (allLists n k).map fun p => d :: p) : Nat → Nat)
      = fun d => (allLists n k).countP fun p => q (d :: p) := by
    funext d
    simp only [Function.comp_apply, List.countP_map]
    rfl
  rw [this, sum_map_range]

/-!
## The recurrence satisfied by `numCompletions`
-/

lemma stepChain_cons (w h crt d : Nat) (p : List Nat) :
    stepChain w h crt (d :: p) = (step w h crt d && stepChain w h d p) := rfl

lemma isCompletion_head_not_free {g : Grid} {v : List Bool} {crt length d : Nat}
    {p : List Nat} (hd : IS_FREE d v = false) :
    isCompletion g v crt length (d :: p) = false := by
  unfold isCompletion
  rw [List.all_cons, hd]
  simp

lemma isCompletion_head_not_step {g : Grid} {v : List Bool} {crt length d : Nat}
    {p : List Nat} (hstep : step g.width g.height crt d = false) :
    isCompletion g v crt length (d :: p) = false := by
  unfold isCompletion
  rw [stepChain_cons, hstep]
  simp

lemma isCompletion_cons {g : Grid} {v : List Bool} {crt length d : Nat}
    {p : List Nat} (hd : IS_FREE d v = true)
    (hstep : step g.width g.height crt d = true) :
    isCompletion g v crt length (d :: p)
      = isCompletion g (v.set d true) d (length+1) p := by
  have hdlt : d < v.length := (IS_FREE_iff.1 hd).1
  rw [Bool.eq_iff_iff]
  unfold isCompletion
  rw [stepChain_cons]
  simp only [List.all_cons, hstep, hd, Bool.true_and, Bool.and_eq_true,
    List.all_eq_true, decide_eq_true_eq, List.nodup_cons, beq_iff_eq,
    List.getLastD_cons, List.length_cons]
  constructor
  · rintro ⟨⟨⟨⟨hchain, hall⟩, hnotmem, hnodup⟩, hlen⟩, hlast⟩
    refine ⟨⟨⟨⟨hchain, ?_⟩, hnodup⟩, by omega⟩, hlast⟩
    intro x hx
    have hxfree := hall x hx
    have hxd : x ≠ d := fun hxeq => hnotmem (hxeq ▸ hx)
    rw [IS_FREE_iff] at hxfree ⊢
    rw [List.length_set]
    exact ⟨hxfree.1, by rw [getD_set_ne _ _ (Ne.symm hxd)]; exact hxfree.2⟩
  · rintro ⟨⟨⟨⟨hchain, hall⟩, hnodup⟩, hlen⟩, hlast⟩
    have hnotmem : d ∉ p := by
      intro hmem
      have hfd := hall d hmem
      rw [IS_FREE_iff] at hfd
      rw [getD_set_self _ _ hdlt] at hfd
      exact Bool.noConfusion hfd.2
    refine ⟨⟨⟨⟨hchain, ?_⟩, hnotmem, hnodup⟩, by omega⟩, hlast⟩
    intro x hx
    have hxfree := hall x hx
    have hxd : x ≠ d := fun hxeq => hnotmem (hxeq ▸ hx)
    rw [IS_FREE_iff] at hxfree ⊢
    rw [List.length_set] at hxfree
    obtain ⟨hx1, hx2⟩ := hxfree
    rw [getD_set_ne _ _ (Ne.symm hxd)] at hx2
    exact ⟨hx1, hx2⟩

/-- At the accepting state the empty completion is the only one. -/
lemma numCompletions_terminal (g : Grid) (v : List Bool) (crt length : Nat)
    (hcrt : crt = g.endPos) (hlen : length = g.path_length) :
    numCompletions g v crt length = 1 := by
  unfold numCompletions
  have h0 : g.path_length - length = 0 := by omega
  rw [h0]
  show (List.countP _ [[]]) = 1
  rw [List.countP_cons]
  have : isCompletion g v crt length [] = true := by
    unfold isCompletion
    simp only [stepChain, List.all_nil, List.nodup_nil, List.getLastD_nil,
      List.length_nil, decide_True, Bool.true_and, Bool.and_true]
    rw [Nat.add_zero]
    have h1 : (length == g.path_length) = true := beq_iff_eq.2 hlen
    have h2 : (crt == g.endPos) = true := beq_iff_eq.2 hcrt
    rw [h1, h2]
    rfl
  rw [this]
  rfl

/-- With the target length reached but the frontier off the End cell, no
completion exists. -/
lemma numCompletions_stuck (g : Grid) (v : List Bool) (crt length : Nat)
    (hcrt : crt ≠ g.endPos) (hlen : g.path_length ≤ length) :
    numCompletions g v crt length = 0 := by
  unfold numCompletions
  have h0 : g.path_length - length = 0 := by omega
  rw [h0]
  show (List.countP _ [[]]) = 0
  rw [List.countP_cons]
  have : isCompletion g v crt length [] = false := by
    unfold isCompletion
    simp only [List.getLastD_nil]
    have h2 : (crt == g.endPos) = false := beq_eq_false_iff_ne.2 hcrt
    rw [h2]
    simp
  rw [this]
  rfl

/-- The recurrence: below the target length, completions are classified by
their first move. -/
lemma numCompletions_succ (g : Grid) (v : List Bool) (crt length : Nat)
    (hlt : length < g.path_length) :
    numCompletions g v crt length
      = ∑ d in Finset.range (g.width * g.height),
          (if step g.width g.height crt d && IS_FREE d v
           then numCompletions g (v.set d true) d (length+1) else 0) := by
  unfold numCompletions
  have hk : g.path_length - length = (g.path_length - (length+1)) + 1 := by omega
  rw [hk, countP_allLists_succ]
  refine Finset.sum_congr rfl ?_
  intro d _
  rcases hstep : step g.width g.height crt d with _ | _
  · rw [Bool.false_and, if_neg (by simp)]
    rw [List.countP_eq_zero]
    intro p _
    rw [isCompletion_head_not_step hstep]
    simp
  · rcases hfree : IS_FREE d v with _ | _
    · rw [Bool.true_and, if_neg (by simp)]
      rw [List.countP_eq_zero]
      intro p _
      rw [isCompletion_head_not_free hfree]
      simp
    · rw [Bool.true_and, if_pos rfl]
      exact List.countP_congr fun p _ => by
        rw [isCompletion_cons hfree hstep]

/-!
## Geometry of the four guarded moves
-/

lemma CAN_GO_UP_iff {w a : Nat} : CAN_GO_UP w a = true ↔ w ≤ a := by
  unfold CAN_GO_UP; exact decide_eq_true_iff

lemma CAN_GO_DOWN_iff {w h a : Nat} : CAN_GO_DOWN w h a = true ↔ a + w < w * h := by
  unfold CAN_GO_DOWN DOWN; exact decide_eq_true_iff

lemma CAN_GO_RIGHT_iff {w h a : Nat} :
    CAN_GO_RIGHT w h a = true ↔ a + 1 < w * h ∧ SAME_ROW w a (a+1) = true := by
  unfold CAN_GO_RIGHT RIGHT
  rw [Bool.and_eq_true, decide_eq_true_iff]


lemma CAN_GO_LEFT_iff {w a : Nat} :
    CAN_GO_LEFT w a = true ↔ 1 ≤ a ∧ SAME_ROW w a (a-1) = true := by
  unfold CAN_GO_LEFT LEFT
  rw [Bool.and_eq_true, decide_eq_true_iff]

lemma SAME_ROW_iff {w a b : Nat} : SAME_ROW w a b = true ↔ a / w = b / w := by
  unfold SAME_ROW; exact beq_iff_eq

lemma step_cases {w h a b : Nat} (hs : step w h a b = true) :
    (CAN_GO_UP w a = true ∧ b = UP w a)
    ∨ (CAN_GO_RIGHT w h a = true ∧ b = RIGHT a)
    ∨ (CAN_GO_DOWN w h a = true ∧ b = DOWN w a)
    ∨ (CAN_GO_LEFT w a = true ∧ b = LEFT a) := by
  unfold step at hs
  simp only [Bool.or_eq_true, Bool.and_eq_true, beq_iff_eq] at hs
  tauto

lemma step_intro_up {w h x y : Nat} (hg : CAN_GO_UP w x = true)
    (hy : y = UP w x) : step w h x y = true := by
  unfold step; rw [hg, hy]; simp

lemma step_intro_right {w h x y : Nat} (hg : CAN_GO_RIGHT w h x = true)
    (hy : y = RIGHT x) : step w h x y = true := by
  unfold step; rw [hg, hy]; simp

lemma step_intro_down {w h x y : Nat} (hg : CAN_GO_DOWN w h x = true)
    (hy : y = DOWN w x) : step w h x y = true := by
  unfold step; rw [hg, hy]; simp

lemma step_intro_left {w h x y : Nat} (hg : CAN_GO_LEFT w x = true)
    (hy : y = LEFT x) : step w h x y = true := by
  unfold step; rw [hg, hy]; simp

lemma width_pos {w h a : Nat} (ha : a < w * h) : 0 < w := by
  rcases Nat.eq_zero_or_pos w with rfl | hw
  · rw [Nat.zero_mul] at ha
    exact absurd ha (Nat.not_lt_zero _)
  · exact hw

/-- Moves never leave the board (for an in-range source). -/
lemma step_lt {w h a b : Nat} (ha : a < w * h) (hs : step w h a b = true) :
    b < w * h := by
  rcases step_cases hs with ⟨hg, rfl⟩ | ⟨hg, rfl⟩ | ⟨hg, rfl⟩ | ⟨hg, rfl⟩
  · unfold UP; omega
  · have := (CAN_GO_RIGHT_iff.1 hg).1
    unfold RIGHT; omega
  · have := CAN_GO_DOWN_iff.1 hg
    unfold DOWN; omega
  · unfold LEFT; omega

/-- Grid moves are symmetric (for an in-range source). -/
lemma step_symm {w h a b : Nat} (ha : a < w * h) (hs : step w h a b = true) :
    step w h b a = true := by
  rcases step_cases hs with ⟨hg, rfl⟩ | ⟨hg, rfl⟩ | ⟨hg, rfl⟩ | ⟨hg, rfl⟩
  · have hup := CAN_GO_UP_iff.1 hg
    refine step_intro_down ?_ (by unfold DOWN UP; omega)
    rw [CAN_GO_DOWN_iff]
    unfold UP
    omega
  · obtain ⟨hlt, hrow⟩ := CAN_GO_RIGHT_iff.1 hg
    refine step_intro_left ?_ (by unfold LEFT RIGHT; omega)
    rw [CAN_GO_LEFT_iff]
    constructor
    · unfold RIGHT; omega
    · rw [SAME_ROW_iff] at hrow ⊢
      unfold RIGHT
      simp only [Nat.add_sub_cancel]
      omega
  · have hdown := CAN_GO_DOWN_iff.1 hg
    refine step_intro_up ?_ (by unfold UP DOWN; omega)
    rw [CAN_GO_UP_iff]
    unfold DOWN
    omega
  · obtain ⟨hge, hrow⟩ := CAN_GO_LEFT_iff.1 hg
    refine step_intro_right ?_ (by unfold RIGHT LEFT; omega)
    rw [CAN_GO_RIGHT_iff]
    constructor
    · unfold LEFT; omega
    · rw [SAME_ROW_iff] at hrow ⊢
      unfold LEFT
      have : a - 1 + 1 = a := by omega
      rw [this]
      omega


lemma mem_if_singleton {c : Bool} {t m : Nat} :
    m ∈ (if c then ({t} : Finset Nat) else ∅) ↔ c = true ∧ m = t := by
  rcases c with _ | _ <;> simp

lemma card_if_singleton {c : Bool} {t : Nat} :
    (if c then ({t} : Finset Nat) else ∅).card = if c then 1 else 0 := by
  rcases c with _ | _ <;> simp

lemma disj_if_singleton {c1 c2 : Bool} {t1 t2 : Nat}
    (hne : c1 = true → c2 = true → t1 ≠ t2) :
    Disjoint (if c1 then ({t1} : Finset Nat) else ∅)
      (if c2 then ({t2} : Finset Nat) else ∅) := by
  rcases c1 with _ | _
  · simp
  rcases c2 with _ | _
  · simp
  simp only [if_true]
  rw [Finset.disjoint_singleton]
  exact hne rfl rfl

lemma same_row_succ_w_ge {w i : Nat} (hw : 0 < w)
    (hrow : SAME_ROW w i (i+1) = true) : 2 ≤ w := by
  rw [SAME_ROW_iff] at hrow
  by_contra hlt
  have hw1 : w = 1 := by omega
  subst hw1
  rw [Nat.div_one, Nat.div_one] at hrow
  omega

lemma same_row_pred_w_ge {w i : Nat} (hw : 0 < w) (hi : 1 ≤ i)
    (hrow : SAME_ROW w i (i-1) = true) : 2 ≤ w := by
  rw [SAME_ROW_iff] at hrow
  by_contra hlt
  have hw1 : w = 1 := by omega
  subst hw1
  rw [Nat.div_one, Nat.div_one] at hrow
  omega

/-- The degree the program computes for cell `i` is exactly the number of
available neighbours the spec describes. -/
lemma degreeOf_eq_card {g : Grid} {v : List Bool} {crt i : Nat}
    (hi : i < g.width * g.height) :
    degreeOf g v crt i = specAvailDegree g v crt i := by
  have hw : 0 < g.width := width_pos hi
  have hset : ((Finset.range (g.width * g.height)).filter
      fun m => step g.width g.height i m = true ∧ (IS_FREE m v = true ∨ m = crt)) =
      (((if CAN_GO_UP g.width i && (IS_FREE (UP g.width i) v || UP g.width i == crt)
          then ({UP g.width i} : Finset Nat) else ∅) ∪
        (if CAN_GO_RIGHT g.width g.height i && (IS_FREE (RIGHT i) v || RIGHT i == crt)
          then ({RIGHT i} : Finset Nat) else ∅)) ∪
        (if CAN_GO_DOWN g.width g.height i && (IS_FREE (DOWN g.width i) v || DOWN g.width i == crt)
          then ({DOWN g.width i} : Finset Nat) else ∅)) ∪
        (if CAN_GO_LEFT g.width i && (IS_FREE (LEFT i) v || LEFT i == crt)
          then ({LEFT i} : Finset Nat) else ∅) := by
    ext m
    simp only [Finset.mem_filter, Finset.mem_range, Finset.mem_union,
      mem_if_singleton]
    simp only [Bool.and_eq_true, Bool.or_eq_true, beq_iff_eq]
    constructor
    · rintro ⟨hm, hstep, havail⟩
      have hav : ∀ t : Nat, m = t →
          ((IS_FREE t v || t == crt) = true) := by
        rintro t rfl
        rcases havail with hfree | hcrt
        · rw [hfree, Bool.true_or]
        · rw [beq_iff_eq.2 hcrt, Bool.or_true]
      rcases step_cases hstep with ⟨hg, rfl⟩ | ⟨hg, rfl⟩ | ⟨hg, rfl⟩ | ⟨hg, rfl⟩
      · exact Or.inl (Or.inl (Or.inl ⟨⟨hg, by
          have := hav (UP g.width i) rfl
          simpa [Bool.or_eq_true, beq_iff_eq] using this⟩, rfl⟩))
      · exact Or.inl (Or.inl (Or.inr ⟨⟨hg, by
          have := hav (RIGHT i) rfl
          simpa [Bool.or_eq_true, beq_iff_eq] using this⟩, rfl⟩))
      · exact Or.inl (Or.inr ⟨⟨hg, by
          have := hav (DOWN g.width i) rfl
          simpa [Bool.or_eq_true, beq_iff_eq] using this⟩, rfl⟩)
      · exact Or.inr ⟨⟨hg, by
          have := hav (LEFT i) rfl
          simpa [Bool.or_eq_true, beq_iff_eq] using this⟩, rfl⟩
    · rintro ((((⟨⟨hg, hav⟩, rfl⟩ | ⟨⟨hg, hav⟩, rfl⟩) | ⟨⟨hg, hav⟩, rfl⟩) | ⟨⟨hg, hav⟩, rfl⟩))
      · refine ⟨by unfold UP; omega, step_intro_up hg rfl, hav⟩
      · refine ⟨(CAN_GO_RIGHT_iff.1 hg).1, step_intro_right hg rfl, hav⟩
      · refine ⟨CAN_GO_DOWN_iff.1 hg, step_intro_down hg rfl, hav⟩
      · refine ⟨by unfold LEFT; omega, step_intro_left hg rfl, hav⟩
  have hD1 : Disjoint
      (if CAN_GO_UP g.width i && (IS_FREE (UP g.width i) v || UP g.width i == crt)
        then ({UP g.width i} : Finset Nat) else ∅)
      (if CAN_GO_RIGHT g.width g.height i && (IS_FREE (RIGHT i) v || RIGHT i == crt)
        then ({RIGHT i} : Finset Nat) else ∅) := by
    refine disj_if_singleton fun _ _ => ?_
    unfold UP RIGHT; omega
  have hD2 : Disjoint
      ((if CAN_GO_UP g.width i && (IS_FREE (UP g.width i) v || UP g.width i == crt)
        then ({UP g.width i} : Finset Nat) else ∅) ∪
       (if CAN_GO_RIGHT g.width g.height i && (IS_FREE (RIGHT i) v || RIGHT i == crt)
        then ({RIGHT i} : Finset Nat) else ∅))
      (if CAN_GO_DOWN g.width g.height i && (IS_FREE (DOWN g.width i) v || DOWN g.width i == crt)
        then ({DOWN g.width i} : Finset Nat) else ∅) := by
    rw [Finset.disjoint_union_left]
    constructor
    · refine disj_if_singleton fun _ _ => ?_
      unfold UP DOWN; omega
    · refine disj_if_singleton fun hc1 _ => ?_
      have hg := Bool.and_elim_left hc1
      have hrow := (CAN_GO_RIGHT_iff.1 hg).2
      have hge := same_row_succ_w_ge hw hrow
      unfold RIGHT DOWN; omega
  have hD3 : Disjoint
      (((if CAN_GO_UP g.width i && (IS_FREE (UP g.width i) v || UP g.width i == crt)
        then ({UP g.width i} : Finset Nat) else ∅) ∪
       (if CAN_GO_RIGHT g.width g.height i && (IS_FREE (RIGHT i) v || RIGHT i == crt)
        then ({RIGHT i} : Finset Nat) else ∅)) ∪
       (if CAN_GO_DOWN g.width g.height i && (IS_FREE (DOWN g.width i) v || DOWN g.width i == crt)
        then ({DOWN g.width i} : Finset Nat) else ∅))
      (if CAN_GO_LEFT g.width i && (IS_FREE (LEFT i) v || LEFT i == crt)
        then ({LEFT i} : Finset Nat) else ∅) := by
    rw [Finset.disjoint_union_left, Finset.disjoint_union_left]
    refine ⟨⟨?_, ?_⟩, ?_⟩
    · refine disj_if_singleton fun hc1 hc2 => ?_
      have hgu := CAN_GO_UP_iff.1 (Bool.and_elim_left hc1)
      have hgl := CAN_GO_LEFT_iff.1 (Bool.and_elim_left hc2)
      have hge := same_row_pred_w_ge hw hgl.1 hgl.2
      unfold UP LEFT; omega
    · refine disj_if_singleton fun _ _ => ?_
      unfold RIGHT LEFT; omega
    · refine disj_if_singleton fun _ _ => ?_
      unfold DOWN LEFT; omega
  unfold specAvailDegree
  rw [hset, Finset.card_union_of_disjoint hD3, Finset.card_union_of_disjoint hD2,
    Finset.card_union_of_disjoint hD1,
    card_if_singleton, card_if_singleton, card_if_singleton, card_if_singleton]
  rfl

/-!
## Soundness of the pruning heuristic
-/

lemma getD_mem {l : List Nat} {j : Nat} (hj : j < l.length) : l.getD j 0 ∈ l := by
  rw [List.getD_eq_getElem _ _ hj]
  exact List.getElem_mem _

lemma mem_getD {l : List Nat} {x : Nat} (hx : x ∈ l) :
    ∃ j, j < l.length ∧ l.getD j 0 = x := by
  obtain ⟨j, hj, hval⟩ := List.mem_iff_getElem.1 hx
  exact ⟨j, hj, by rw [List.getD_eq_getElem _ _ hj]; exact hval⟩

lemma nodup_getD_inj {l : List Nat} (hnd : l.Nodup) {j k : Nat}
    (hj : j < l.length) (hk : k < l.length)
    (heq : l.getD j 0 = l.getD k 0) : j = k := by
  rw [List.getD_eq_getElem _ _ hj, List.getD_eq_getElem _ _ hk] at heq
  exact (List.Nodup.getElem_inj_iff hnd).1 heq

lemma getLastD_eq_getD :
    ∀ (p : List Nat) (d : Nat), p ≠ [] →
      p.getLastD d = p.getD (p.length - 1) 0 := by
  intro p
  induction p with
  | nil => intro d h; exact absurd rfl h
  | cons x rest ih =>
    intro d _
    rcases rest with _ | ⟨y, rest'⟩
    · rfl
    · rw [List.getLastD_cons, ih x (by simp)]
      simp only [List.length_cons, Nat.add_sub_cancel]
      rfl

lemma stepChain_getD {w h : Nat} :
    ∀ (p : List Nat) (crt : Nat), stepChain w h crt p = true →
      ∀ j, j < p.length →
        step w h ((crt :: p).getD j 0) (p.getD j 0) = true := by
  intro p
  induction p with
  | nil => intro crt _ j hj; exact absurd hj (Nat.not_lt_zero _)
  | cons d rest ih =>
    intro crt hchain j hj
    rw [stepChain_cons, Bool.and_eq_true] at hchain
    rcases j with _ | j'
    · exact hchain.1
    · have := ih d hchain.2 j' (by simp at hj; omega)
      simpa using this

lemma isCompletion_elim {g : Grid} {v : List Bool} {crt length : Nat}
    {p : List Nat} (h : isCompletion g v crt length p = true) :
    stepChain g.width g.height crt p = true ∧ (∀ x ∈ p, IS_FREE x v = true)
    ∧ p.Nodup ∧ length + p.length = g.path_length
    ∧ p.getLastD crt = g.endPos := by
  unfold isCompletion at h
  simp only [Bool.and_eq_true, List.all_eq_true, decide_eq_true_eq,
    beq_iff_eq] at h
  tauto

/-- A completion of a state whose free count matches the missing length
passes through every free cell. -/
lemma completion_covers {g : Grid} {v : List Bool} {crt length : Nat}
    {p : List Nat}
    (hinv : length + freeCount v = g.path_length)
    (hcomp : isCompletion g v crt length p = true) :
    ∀ x, IS_FREE x v = true → x ∈ p := by
  obtain ⟨_, hall, hnd, hplen, _⟩ := isCompletion_elim hcomp
  have hsub : p.toFinset ⊆
      (Finset.range v.length).filter fun i => v.getD i true = false := by
    intro x hx
    rw [List.mem_toFinset] at hx
    obtain ⟨hlt, hfree⟩ := IS_FREE_iff.1 (hall x hx)
    simp only [Finset.mem_filter, Finset.mem_range]
    exact ⟨hlt, hfree⟩
  have hcards : ((Finset.range v.length).filter
      fun i => v.getD i true = false).card ≤ p.toFinset.card := by
    rw [List.toFinset_card_of_nodup hnd]
    show freeCount v ≤ p.length
    omega
  have heq := Finset.eq_of_subset_of_card_le hsub hcards
  intro x hxfree
  obtain ⟨hlt, hfree⟩ := IS_FREE_iff.1 hxfree
  have : x ∈ p.toFinset := by
    rw [heq]
    simp only [Finset.mem_filter, Finset.mem_range]
    exact ⟨hlt, hfree⟩
  exact List.mem_toFinset.1 this

/-- What the pruning scan reports, in terms of the degree function. -/
lemma prune_iff {g : Grid} {v : List Bool} {crt : Nat} :
    path_has_rooms_with_degree_lt_2 g v crt = true ↔
    ∃ i, i < g.width * g.height ∧ IS_FREE i v = true ∧ i ≠ g.endPos
      ∧ degreeOf g v crt i < 2 := by
  unfold path_has_rooms_with_degree_lt_2
  rw [List.any_eq_true]
  constructor
  · rintro ⟨i, hi, hpred⟩
    rw [List.mem_range] at hi
    simp only [Bool.and_eq_true, bne_iff_ne, decide_eq_true_eq] at hpred
    exact ⟨i, hi, hpred.1.1, hpred.1.2, hpred.2⟩
  · rintro ⟨i, hi, h1, h2, h3⟩
    refine ⟨i, List.mem_range.2 hi, ?_⟩
    simp only [Bool.and_eq_true, bne_iff_ne, decide_eq_true_eq]
    exact ⟨⟨h1, h2⟩, h3⟩

/-- Soundness of the heuristic: when the scan fires on a state reached by
the search (frontier visited and in range, free count matching the missing
length), that state has no completion at all. -/
lemma prune_sound {g : Grid} {v : List Bool} {crt length : Nat}
    (hvlen : v.length = g.width * g.height)
    (hcrt_lt : crt < g.width * g.height)
    (hcrt_vis : IS_FREE crt v = false)
    (hinv : length + freeCount v = g.path_length)
    (hprune : path_has_rooms_with_degree_lt_2 g v crt = true) :
    numCompletions g v crt length = 0 := by
  obtain ⟨i, hi_lt, hi_free, hi_ne, hi_deg⟩ := prune_iff.1 hprune
  unfold numCompletions
  rw [List.countP_eq_zero]
  intro p _
  rw [Bool.not_eq_true]
  by_contra hcomp'
  have hcomp : isCompletion g v crt length p = true := by
    rcases hx : isCompletion g v crt length p with _ | _
    · exact absurd hx hcomp'
    · rfl
  obtain ⟨hchain, hall, hnd, hplen, hlast⟩ := isCompletion_elim hcomp
  have hmem : i ∈ p := completion_covers hinv hcomp i hi_free
  obtain ⟨j, hj, hji⟩ := mem_getD hmem
  have hk_pos : 0 < p.length := by omega
  have hlast_idx : p.getD (p.length - 1) 0 = g.endPos := by
    rw [← getLastD_eq_getD p crt (by intro he; rw [he] at hj; simp at hj)]
    exact hlast
  have hjk : j ≠ p.length - 1 := by
    intro he
    exact hi_ne (by rw [← hji, he, hlast_idx])
  have hj1 : j + 1 < p.length := by omega
  have hsteps := stepChain_getD p crt hchain
  -- the predecessor and successor of i on the completion
  have hstep_pred : step g.width g.height ((crt :: p).getD j 0) i = true := by
    have := hsteps j hj
    rwa [hji] at this
  have hstep_succ : step g.width g.height i (p.getD (j+1) 0) = true := by
    have := hsteps (j+1) hj1
    have hcons : ((crt :: p).getD (j+1) 0) = p.getD j 0 := rfl
    rwa [hcons, hji] at this
  have hcrt_notmem : crt ∉ p := by
    intro hc
    rw [hall crt hc] at hcrt_vis
    exact Bool.noConfusion hcrt_vis
  have hqnd : (crt :: p).Nodup := List.nodup_cons.2 ⟨hcrt_notmem, hnd⟩
  have hpred_avail : IS_FREE ((crt :: p).getD j 0) v = true
      ∨ (crt :: p).getD j 0 = crt := by
    rcases j with _ | j'
    · exact Or.inr rfl
    · have : (crt :: p).getD (j'+1) 0 = p.getD j' 0 := rfl
      rw [this]
      exact Or.inl (hall _ (getD_mem (by omega)))
  have hpred_lt : (crt :: p).getD j 0 < g.width * g.height := by
    rcases hpred_avail with hfree | hcrt
    · have := (IS_FREE_iff.1 hfree).1
      omega
    · rw [hcrt]; exact hcrt_lt
  have hsucc_free : IS_FREE (p.getD (j+1) 0) v = true :=
    hall _ (getD_mem hj1)
  have hsucc_lt : p.getD (j+1) 0 < g.width * g.height := by
    have := (IS_FREE_iff.1 hsucc_free).1
    omega
  have hne_ps : (crt :: p).getD j 0 ≠ p.getD (j+1) 0 := by
    intro he
    have hcons : p.getD (j+1) 0 = (crt :: p).getD (j+2) 0 := rfl
    rw [hcons] at he
    have := nodup_getD_inj hqnd (by simp; omega) (by simp; omega) he
    omega
  have hdeg2 : 2 ≤ degreeOf g v crt i := by
    rw [degreeOf_eq_card hi_lt]
    refine Finset.one_lt_card.2 ⟨(crt :: p).getD j 0, ?_, p.getD (j+1) 0, ?_, hne_ps⟩
    · simp only [Finset.mem_filter, Finset.mem_range]
      exact ⟨hpred_lt, step_symm hpred_lt hstep_pred, by
        rcases hpred_avail with hf | hc
        · exact Or.inl hf
        · exact Or.inr hc⟩
    · simp only [Finset.mem_filter, Finset.mem_range]
      exact ⟨hsucc_lt, hstep_succ, Or.inl hsucc_free⟩
  omega

/-!
## Summing a function over the available moves
-/

lemma sum_if_singleton {M : Type} [AddCommMonoid M] {c : Bool} {t : Nat}
    (G : Nat → M) :
    (∑ x ∈ (if c then ({t} : Finset Nat) else ∅), G x)
      = if c then G t else 0 := by
  rcases c with _ | _ <;> simp

/-- Summing over the in-range step targets of `crt` is summing over the
four guarded directions. -/
lemma sum_step_filter {M : Type} [AddCommMonoid M] (g : Grid) (crt : Nat)
    (hcrt : crt < g.width * g.height) (G : Nat → M) :
    (∑ d ∈ Finset.range (g.width * g.height),
      if step g.width g.height crt d = true then G d else 0)
    = (if CAN_GO_UP g.width crt then G (UP g.width crt) else 0)
      + (if CAN_GO_RIGHT g.width g.height crt then G (RIGHT crt) else 0)
      + (if CAN_GO_DOWN g.width g.height crt then G (DOWN g.width crt) else 0)
      + (if CAN_GO_LEFT g.width crt then G (LEFT crt) else 0) := by
  have hw : 0 < g.width := width_pos hcrt
  rw [← Finset.sum_filter]
  have hset : (Finset.range (g.width * g.height)).filter
      (fun d => step g.width g.height crt d = true)
      = (((if CAN_GO_UP g.width crt then ({UP g.width crt} : Finset Nat) else ∅)
        ∪ (if CAN_GO_RIGHT g.width g.height crt then ({RIGHT crt} : Finset Nat) else ∅))
        ∪ (if CAN_GO_DOWN g.width g.height crt then ({DOWN g.width crt} : Finset Nat) else ∅))
        ∪ (if CAN_GO_LEFT g.width crt then ({LEFT crt} : Finset Nat) else ∅) := by
    ext m
    simp only [Finset.mem_filter, Finset.mem_range, Finset.mem_union,
      mem_if_singleton]
    constructor
    · rintro ⟨hm, hstep⟩
      rcases step_cases hstep with ⟨hg, rfl⟩ | ⟨hg, rfl⟩ | ⟨hg, rfl⟩ | ⟨hg, rfl⟩
      · exact Or.inl (Or.inl (Or.inl ⟨hg, rfl⟩))
      · exact Or.inl (Or.inl (Or.inr ⟨hg, rfl⟩))
      · exact Or.inl (Or.inr ⟨hg, rfl⟩)
      · exact Or.inr ⟨hg, rfl⟩
    · rintro (((⟨hg, rfl⟩ | ⟨hg, rfl⟩) | ⟨hg, rfl⟩) | ⟨hg, rfl⟩)
      · exact ⟨by unfold UP; omega, step_intro_up hg rfl⟩
      · exact ⟨(CAN_GO_RIGHT_iff.1 hg).1, step_intro_right hg rfl⟩
      · exact ⟨CAN_GO_DOWN_iff.1 hg, step_intro_down hg rfl⟩
      · exact ⟨by unfold LEFT; omega, step_intro_left hg rfl⟩
  have hD1 : Disjoint
      (if CAN_GO_UP g.width crt then ({UP g.width crt} : Finset Nat) else ∅)
      (if CAN_GO_RIGHT g.width g.height crt then ({RIGHT crt} : Finset Nat) else ∅) := by
    refine disj_if_singleton fun _ _ => ?_
    unfold UP RIGHT; omega
  have hD2 : Disjoint
      ((if CAN_GO_UP g.width crt then ({UP g.width crt} : Finset Nat) else ∅)
        ∪ (if CAN_GO_RIGHT g.width g.height crt then ({RIGHT crt} : Finset Nat) else ∅))
      (if CAN_GO_DOWN g.width g.height crt then ({DOWN g.width crt} : Finset Nat) else ∅) := by
    rw [Finset.disjoint_union_left]
    constructor
    · refine disj_if_singleton fun _ _ => ?_
      unfold UP DOWN; omega
    · refine disj_if_singleton fun hc1 _ => ?_
      have hrow := (CAN_GO_RIGHT_iff.1 hc1).2
      have hge := same_row_succ_w_ge hw hrow
      unfold RIGHT DOWN; omega
  have hD3 : Disjoint
      (((if CAN_GO_UP g.width crt then ({UP g.width crt} : Finset Nat) else ∅)
        ∪ (if CAN_GO_RIGHT g.width g.height crt then ({RIGHT crt} : Finset Nat) else ∅))
        ∪ (if CAN_GO_DOWN g.width g.height crt then ({DOWN g.width crt} : Finset Nat) else ∅))
      (if CAN_GO_LEFT g.width crt then ({LEFT crt} : Finset Nat) else ∅) := by
    rw [Finset.disjoint_union_left, Finset.disjoint_union_left]
    refine ⟨⟨?_, ?_⟩, ?_⟩
    · refine disj_if_singleton fun hc1 hc2 => ?_
      have hgu := CAN_GO_UP_iff.1 hc1
      have hgl := CAN_GO_LEFT_iff.1 hc2
      have hge := same_row_pred_w_ge hw hgl.1 hgl.2
      unfold UP LEFT; omega
    · refine disj_if_singleton fun _ _ => ?_
      unfold RIGHT LEFT; omega
    · refine disj_if_singleton fun _ _ => ?_
      unfold DOWN LEFT; omega
  rw [hset, Finset.sum_union hD3, Finset.sum_union hD2, Finset.sum_union hD1,
    sum_if_singleton, sum_if_singleton, sum_if_singleton, sum_if_singleton]

/-- The four direction branches of the search body sum to the number of
completions, provided each explored child already counts its completions. -/
lemma code_sum_eq_numCompletions (g : Grid) {v : List Bool} {crt length : Nat}
    (hcrt : crt < g.width * g.height) (hlt : length < g.path_length)
    (X : Nat → Int)
    (hX : ∀ d, step g.width g.height crt d = true → IS_FREE d v = true →
      X d = (numCompletions g (v.set d true) d (length+1) : Int)) :
    ((if CAN_GO_UP g.width crt && IS_FREE (UP g.width crt) v
        then X (UP g.width crt) else 0)
     + (if CAN_GO_RIGHT g.width g.height crt && IS_FREE (RIGHT crt) v
        then X (RIGHT crt) else 0)
     + (if CAN_GO_DOWN g.width g.height crt && IS_FREE (DOWN g.width crt) v
        then X (DOWN g.width crt) else 0)
     + (if CAN_GO_LEFT g.width crt && IS_FREE (LEFT crt) v
        then X (LEFT crt) else 0))
    = (numCompletions g v crt length : Int) := by
  rw [numCompletions_succ g v crt length hlt, Nat.cast_sum]
  have hstepform : ∀ d ∈ Finset.range (g.width * g.height),
      ((if step g.width g.height crt d && IS_FREE d v
        then numCompletions g (v.set d true) d (length+1) else 0 : Nat) : Int)
      = if step g.width g.height crt d = true
        then (if IS_FREE d v = true
          then (numCompletions g (v.set d true) d (length+1) : Int) else 0)
        else 0 := by
    intro d _
    rcases hs : step g.width g.height crt d with _ | _ <;>
      rcases hf : IS_FREE d v with _ | _ <;> simp
  rw [Finset.sum_congr rfl hstepform,
    sum_step_filter g crt hcrt
      (fun d => if IS_FREE d v = true
        then (numCompletions g (v.set d true) d (length+1) : Int) else 0)]
  have hbr_up : (if CAN_GO_UP g.width crt && IS_FREE (UP g.width crt) v
      then X (UP g.width crt) else 0)
      = if CAN_GO_UP g.width crt
        then (if IS_FREE (UP g.width crt) v = true
          then (numCompletions g (v.set (UP g.width crt) true) (UP g.width crt) (length+1) : Int)
          else 0)
        else 0 := by
    rcases hg : CAN_GO_UP g.width crt with _ | _
    · simp
    · rcases hf : IS_FREE (UP g.width crt) v with _ | _
      · simp
      · simp only [Bool.and_self, if_true]
        rw [hX _ (step_intro_up hg rfl) hf]
  have hbr_right : (if CAN_GO_RIGHT g.width g.height crt && IS_FREE (RIGHT crt) v
      then X (RIGHT crt) else 0)
      = if CAN_GO_RIGHT g.width g.height crt
        then (if IS_FREE (RIGHT crt) v = true
          then (numCompletions g (v.set (RIGHT crt) true) (RIGHT crt) (length+1) : Int)
          else 0)
        else 0 := by
    rcases hg : CAN_GO_RIGHT g.width g.height crt with _ | _
    · simp
    · rcases hf : IS_FREE (RIGHT crt) v with _ | _
      · simp
      · simp only [Bool.and_self, if_true]
        rw [hX _ (step_intro_right hg rfl) hf]
  have hbr_down : (if CAN_GO_DOWN g.width g.height crt && IS_FREE (DOWN g.width crt) v
      then X (DOWN g.width crt) else 0)
      = if CAN_GO_DOWN g.width g.height crt
        then (if IS_FREE (DOWN g.width crt) v = true
          then (numCompletions g (v.set (DOWN g.width crt) true) (DOWN g.width crt) (length+1) : Int)
          else 0)
        else 0 := by
    rcases hg : CAN_GO_DOWN g.width g.height crt with _ | _
    · simp
    · rcases hf : IS_FREE (DOWN g.width crt) v with _ | _
      · simp
      · simp only [Bool.and_self, if_true]
        rw [hX _ (step_intro_down hg rfl) hf]
  have hbr_left : (if CAN_GO_LEFT g.width crt && IS_FREE (LEFT crt) v
      then X (LEFT crt) else 0)
      = if CAN_GO_LEFT g.width crt
        then (if IS_FREE (LEFT crt) v = true
          then (numCompletions g (v.set (LEFT crt) true) (LEFT crt) (length+1) : Int)
          else 0)
        else 0 := by
    rcases hg : CAN_GO_LEFT g.width crt with _ | _
    · simp
    · rcases hf : IS_FREE (LEFT crt) v with _ | _
      · simp
      · simp only [Bool.and_self, if_true]
        rw [hX _ (step_intro_left hg rfl) hf]
  rw [hbr_up, hbr_right, hbr_down, hbr_left]

/-!
## The search counts completions
-/


lemma IS_FREE_set_true_self (v : List Bool) (d : Nat) :
    IS_FREE d (v.set d true) = false := by
  unfold IS_FREE
  rw [getD_set_true_self]
  rfl

/-- The pruned search counts exactly the completions of its state. -/
lemma count_paths_eq_numCompletions (g : Grid) :
    ∀ fuel v crt length, SearchInv g v crt length → freeCount v < fuel →
      (count_paths g fuel crt length v).1 = (numCompletions g v crt length : Int) := by
  intro fuel
  induction fuel with
  | zero =>
    intro v crt length _ hfuel
    exact absurd hfuel (Nat.not_lt_zero _)
  | succ fuel ih =>
    rintro v crt length ⟨hvlen, hcrt, hvis, hinv⟩ hfuel
    rw [count_paths_succ]
    split
    case isTrue hterm =>
      have hc := eq_of_beq (Bool.and_elim_left hterm)
      have hl := eq_of_beq (Bool.and_elim_right hterm)
      rw [numCompletions_terminal g v crt length hc hl]
      simp
    case isFalse hterm =>
      split
      case isTrue hprune =>
        rw [prune_sound hvlen hcrt hvis hinv hprune]
        simp
      case isFalse hprune =>
        rcases Nat.lt_or_ge length g.path_length with hlt | hge
        · refine code_sum_eq_numCompletions g hcrt hlt
            (fun d => (count_paths g fuel d (length+1) (v.set d true)).1) ?_
          intro d hstep hfree
          have hfc := freeCount_set_true hfree
          have hpos := freeCount_pos hfree
          refine ih (v.set d true) d (length+1)
            ⟨by rw [List.length_set]; exact hvlen,
             by have := (IS_FREE_iff.1 hfree).1; omega,
             IS_FREE_set_true_self v d, by omega⟩ (by omega)
        · have hfc0 : freeCount v = 0 := by omega
          have hlen_eq : length = g.path_length := by omega
          have hcne : crt ≠ g.endPos := by
            intro hceq
            apply hterm
            rw [hceq, hlen_eq]
            simp
          rw [numCompletions_stuck g v crt length hcne (by omega)]
          have hnofree : ∀ d, IS_FREE d v = false := by
            intro d
            rcases hf : IS_FREE d v with _ | _
            · rfl
            · have := freeCount_pos hf; omega
          simp only [hnofree, Bool.and_false, if_false]
          simp

/-- The unpruned search counts exactly the completions of its state too. -/
lemma count_paths_noprune_eq_numCompletions (g : Grid) :
    ∀ fuel v crt length, SearchInv g v crt length → freeCount v < fuel →
      (count_paths_noprune g fuel crt length v).1
        = (numCompletions g v crt length : Int) := by
  intro fuel
  induction fuel with
  | zero =>
    intro v crt length _ hfuel
    exact absurd hfuel (Nat.not_lt_zero _)
  | succ fuel ih =>
    rintro v crt length ⟨hvlen, hcrt, hvis, hinv⟩ hfuel
    rw [count_paths_noprune_succ]
    split
    case isTrue hterm =>
      have hc := eq_of_beq (Bool.and_elim_left hterm)
      have hl := eq_of_beq (Bool.and_elim_right hterm)
      rw [numCompletions_terminal g v crt length hc hl]
      simp
    case isFalse hterm =>
      rcases Nat.lt_or_ge length g.path_length with hlt | hge
      · refine code_sum_eq_numCompletions g hcrt hlt
          (fun d => (count_paths_noprune g fuel d (length+1) (v.set d true)).1) ?_
        intro d hstep hfree
        have hfc := freeCount_set_true hfree
        have hpos := freeCount_pos hfree
        refine ih (v.set d true) d (length+1)
          ⟨by rw [List.length_set]; exact hvlen,
           by have := (IS_FREE_iff.1 hfree).1; omega,
           IS_FREE_set_true_self v d, by omega⟩ (by omega)
      · have hfc0 : freeCount v = 0 := by omega
        have hlen_eq : length = g.path_length := by omega
        have hcne : crt ≠ g.endPos := by
          intro hceq
          apply hterm
          rw [hceq, hlen_eq]
          simp
        rw [numCompletions_stuck g v crt length hcne (by omega)]
        have hnofree : ∀ d, IS_FREE d v = false := by
          intro d
          rcases hf : IS_FREE d v with _ | _
          · rfl
          · have := freeCount_pos hf; omega
        simp only [hnofree, Bool.and_false, if_false]
        simp

/-!
## The guarded moves are exactly grid adjacency
-/

lemma adjacent_iff {w a b : Nat} :
    adjacent w a b = true ↔
    ((a / w = b / w ∧ (a % w + 1 = b % w ∨ b % w + 1 = a % w))
      ∨ (a % w = b % w ∧ (a / w + 1 = b / w ∨ b / w + 1 = a / w))) := by
  unfold adjacent
  simp only [Bool.or_eq_true, Bool.and_eq_true, beq_iff_eq]

/-- On the board, a guarded move is exactly coordinate adjacency. -/
lemma step_iff_adjacent {w h a b : Nat} (ha : a < w * h) (hb : b < w * h) :
    step w h a b = true ↔ adjacent w a b = true := by
  have hw : 0 < w := width_pos ha
  have ea := Nat.div_add_mod a w
  have eb := Nat.div_add_mod b w
  have hra : a % w < w := Nat.mod_lt _ hw
  have hrb : b % w < w := Nat.mod_lt _ hw
  rw [adjacent_iff]
  constructor
  · intro hs
    rcases step_cases hs with ⟨hg, rfl⟩ | ⟨hg, rfl⟩ | ⟨hg, rfl⟩ | ⟨hg, rfl⟩
    · -- UP: target a - w, guard w ≤ a
      have hga := CAN_GO_UP_iff.1 hg
      have hab : a = UP w a + w := by unfold UP; omega
      refine Or.inr ⟨?_, Or.inr ?_⟩
      · conv_lhs => rw [hab]
        rw [Nat.add_mod_right]
      · conv_rhs => rw [hab]
        rw [Nat.add_div_right _ hw]
    · -- RIGHT: target a + 1, same row
      obtain ⟨hlt, hrow⟩ := CAN_GO_RIGHT_iff.1 hg
      rw [SAME_ROW_iff] at hrow
      have erb := Nat.div_add_mod (RIGHT a) w
      refine Or.inl ⟨by unfold RIGHT at *; omega, Or.inl ?_⟩
      unfold RIGHT at *
      rw [← hrow] at erb
      omega
    · -- DOWN: target a + w
      refine Or.inr ⟨?_, Or.inl ?_⟩
      · unfold DOWN
        rw [Nat.add_mod_right]
      · unfold DOWN
        rw [Nat.add_div_right _ hw]
    · -- LEFT: target a - 1, same row
      obtain ⟨hge, hrow⟩ := CAN_GO_LEFT_iff.1 hg
      rw [SAME_ROW_iff] at hrow
      unfold LEFT at *
      have elb' : w * (a / w) + (a - 1) % w = a - 1 := by
        rw [hrow]; exact Nat.div_add_mod _ _
      exact Or.inl ⟨hrow, Or.inr (by omega)⟩
  · rintro (⟨hrow, hcol | hcol⟩ | ⟨hcol, hrow | hrow⟩)
    · -- same row, b = a + 1 : RIGHT
      have hba : b = a + 1 := by
        have : w * (a / w) = w * (b / w) := by rw [hrow]
        omega
      refine step_intro_right ?_ (by unfold RIGHT; omega)
      rw [CAN_GO_RIGHT_iff]
      refine ⟨by omega, ?_⟩
      rw [SAME_ROW_iff]
      rw [← hba]
      exact hrow
    · -- same row, a = b + 1 : LEFT
      have hba : a = b + 1 := by
        have : w * (a / w) = w * (b / w) := by rw [hrow]
        omega
      refine step_intro_left ?_ (by unfold LEFT; omega)
      rw [CAN_GO_LEFT_iff]
      refine ⟨by omega, ?_⟩
      rw [SAME_ROW_iff]
      have : a - 1 = b := by omega
      rw [this]
      exact hrow
    · -- same column, b one row below : DOWN
      have hmul : w * (a / w + 1) = w * (a / w) + w := by ring
      have hba : b = a + w := by
        have : w * (a / w + 1) = w * (b / w) := by rw [hrow]
        omega
      refine step_intro_down ?_ (by unfold DOWN; omega)
      rw [CAN_GO_DOWN_iff]
      omega
    · -- same column, a one row below : UP
      have hmul : w * (b / w + 1) = w * (b / w) + w := by ring
      have hba : a = b + w := by
        have : w * (b / w + 1) = w * (a / w) := by rw [hrow]
        omega
      refine step_intro_up ?_ (by unfold UP; omega)
      rw [CAN_GO_UP_iff]
      omega

/-- Chain version, along a path of in-range cells. -/
lemma adjChain_iff_stepChain {w h : Nat} :
    ∀ (p : List Nat) (c : Nat), c < w * h → (∀ x ∈ p, x < w * h) →
      (adjChain w (c :: p) = true ↔ stepChain w h c p = true) := by
  intro p
  induction p with
  | nil =>
    intro c _ _
    constructor <;> intro <;> rfl
  | cons d rest ih =>
    intro c hc hall
    have hd : d < w * h := hall d (List.mem_cons_self _ _)
    have hrest : ∀ x ∈ rest, x < w * h :=
      fun x hx => hall x (List.mem_cons_of_mem _ hx)
    show (adjacent w c d && adjChain w (d :: rest)) = true ↔
      (step w h c d && stepChain w h d rest) = true
    rw [Bool.and_eq_true, Bool.and_eq_true]
    rw [ih d hd hrest, step_iff_adjacent hc hd]

/-!
## Hamiltonian paths are the completions of the initial search state
-/

lemma isHamPath_iff {w h : Nat} {cells : List Nat} {s e : Nat} {q : List Nat} :
    isHamPath w h cells s e q = true ↔
    (q ≠ [] ∧ q.headD 0 = s ∧ q.getLastD 0 = e ∧ q.Nodup
    ∧ (∀ x ∈ q, x < w * h ∧ cells.getD x 0 ≠ 1)
    ∧ (∀ i, i < w * h → (cells.getD i 0 = 1 ∨ i ∈ q))
    ∧ adjChain w q = true) := by
  unfold isHamPath
  simp only [Bool.and_eq_true, List.all_eq_true, decide_eq_true_eq,
    Bool.or_eq_true, beq_iff_eq, bne_iff_ne, Bool.not_eq_true',
    List.isEmpty_eq_false, List.mem_range, List.contains_eq_any_beq,
    List.any_eq_true]
  constructor
  · rintro ⟨⟨⟨⟨⟨⟨hne, hhead⟩, hlast⟩, hnd⟩, hbound⟩, hcov⟩, hadj⟩
    refine ⟨hne, hhead, hlast, hnd, fun x hx => hbound x hx, ?_, hadj⟩
    intro i hi
    rcases hcov i hi with hc | ⟨x, hx, rfl⟩
    · exact Or.inl hc
    · exact Or.inr hx
  · rintro ⟨hne, hhead, hlast, hnd, hbound, hcov, hadj⟩
    refine ⟨⟨⟨⟨⟨⟨hne, hhead⟩, hlast⟩, hnd⟩, fun x hx => hbound x hx⟩, ?_⟩, hadj⟩
    intro i hi
    rcases hcov i hi with hc | hmem
    · exact Or.inl hc
    · exact Or.inr ⟨i, hmem, rfl⟩

lemma isCompletion_iff {g : Grid} {v : List Bool} {crt length : Nat}
    {p : List Nat} :
    isCompletion g v crt length p = true ↔
    (stepChain g.width g.height crt p = true ∧ (∀ x ∈ p, IS_FREE x v = true)
    ∧ p.Nodup ∧ length + p.length = g.path_length
    ∧ p.getLastD crt = g.endPos) := by
  unfold isCompletion
  simp only [Bool.and_eq_true, List.all_eq_true, decide_eq_true_eq, beq_iff_eq]
  tauto

/-- A duct path visiting each non-Blocked cell exactly once has exactly as
many cells as there are non-Blocked cells. -/
lemma hampath_length {w h : Nat} {cells : List Nat} {q : List Nat}
    (hlen : cells.length = w * h) (hnd : q.Nodup)
    (hq : ∀ x ∈ q, x < w * h ∧ cells.getD x 0 ≠ 1)
    (hcov : ∀ i, i < w * h → (cells.getD i 0 = 1 ∨ i ∈ q)) :
    q.length = cells.countP (fun c => c ≠ 1) := by
  have hset : q.toFinset = (Finset.range cells.length).filter
      (fun i => (decide (cells.getD i 0 ≠ 1) : Bool)) := by
    ext x
    rw [List.mem_toFinset]
    simp only [Finset.mem_filter, Finset.mem_range, decide_eq_true_eq]
    constructor
    · intro hx
      obtain ⟨h1, h2⟩ := hq x hx
      exact ⟨by omega, h2⟩
    · rintro ⟨h1, h2⟩
      rcases hcov x (by omega) with hc | hc
      · exact absurd hc h2
      · exact hc
  rw [← List.toFinset_card_of_nodup hnd, hset,
    ← countP_eq_card_filter_range cells (fun c => decide (c ≠ 1))]

lemma main_init_IS_FREE {w h : Nat} {cells : List Nat} {s : Nat}
    (hlen : cells.length = w * h) (hcount : cells.count 2 = 1)
    (hs : s < cells.length) (hvs : cells.getD s 0 = 2) (x : Nat) :
    IS_FREE x (main_init w h cells).visited = true ↔
      (x < w * h ∧ cells.getD x 0 ≠ 1 ∧ x ≠ s) := by
  rw [IS_FREE_iff, main_init_visited_length]
  constructor
  · rintro ⟨hx, hfalse⟩
    rw [main_init_visited_getD hlen hx true] at hfalse
    have h1 : cells.getD x 0 ≠ 1 := by
      intro hc; rw [hc] at hfalse; exact Bool.noConfusion hfalse
    have h2 : cells.getD x 0 ≠ 2 := by
      intro hc; rw [hc] at hfalse; exact Bool.noConfusion hfalse
    exact ⟨hx, h1, fun hxs => h2 (hxs ▸ hvs)⟩
  · rintro ⟨hx, h1, hxs⟩
    refine ⟨hx, ?_⟩
    rw [main_init_visited_getD hlen hx true]
    have h2 : cells.getD x 0 ≠ 2 := fun hc =>
      hxs (count_one_unique cells 2 hcount x s (by omega) hs hc hvs)
    rw [beq_eq_false_iff_ne.2 h1, beq_eq_false_iff_ne.2 h2]
    rfl

/-- A Hamiltonian duct path is exactly `s` followed by a completion of the
initial search state. -/
lemma isHamPath_cons_iff {w h : Nat} {cells : List Nat} {s e : Nat}
    (hlen : cells.length = w * h) (hcount2 : cells.count 2 = 1)
    (hs : s < w * h) (hvs : cells.getD s 0 = 2)
    (p : List Nat) :
    isHamPath w h cells s e (s :: p) = true ↔
    isCompletion ⟨w, h, e, cells.countP (fun c => c ≠ 1)⟩
      (main_init w h cells).visited s 1 p = true := by
  have hs' : s < cells.length := by omega
  have hfree := fun x => main_init_IS_FREE hlen hcount2 hs' hvs x
  have hinv := @main_init_freeCount w h cells s hlen hcount2 hs' hvs
  rw [isHamPath_iff, isCompletion_iff]
  constructor
  · rintro ⟨_, _, hlast, hnd, hbound, hcov, hadj⟩
    have hsnot : s ∉ p := (List.nodup_cons.1 hnd).1
    have hpnd : p.Nodup := (List.nodup_cons.1 hnd).2
    have hpbound : ∀ x ∈ p, x < w * h :=
      fun x hx => (hbound x (List.mem_cons_of_mem _ hx)).1
    refine ⟨?_, ?_, hpnd, ?_, ?_⟩
    · exact (adjChain_iff_stepChain p s hs hpbound).1 hadj
    · intro x hx
      refine (hfree x).2 ⟨hpbound x hx,
        (hbound x (List.mem_cons_of_mem _ hx)).2,
        fun hxs => hsnot (hxs ▸ hx)⟩
    · have hqlen := hampath_length hlen hnd hbound hcov
      rw [List.length_cons] at hqlen
      show 1 + p.length = Grid.path_length ⟨w, h, e, _⟩
      dsimp only
      omega
    · rw [List.getLastD_cons] at hlast
      exact hlast
  · rintro ⟨hchain, hall, hpnd, hplen, hlast⟩
    have hsnot : s ∉ p := by
      intro hmem
      exact ((hfree s).1 (hall s hmem)).2.2 rfl
    have hpbound : ∀ x ∈ p, x < w * h :=
      fun x hx => ((hfree x).1 (hall x hx)).1
    refine ⟨by simp, by rfl, ?_, List.nodup_cons.2 ⟨hsnot, hpnd⟩, ?_, ?_, ?_⟩
    · rw [List.getLastD_cons]
      exact hlast
    · intro x hx
      rcases List.mem_cons.1 hx with rfl | hx'
      · exact ⟨hs, by rw [hvs]; omega⟩
      · exact ⟨hpbound x hx',
          ((hfree x).1 (hall x hx')).2.1⟩
    · intro i hi
      by_cases h1 : cells.getD i 0 = 1
      · exact Or.inl h1
      · refine Or.inr ?_
        rcases eq_or_ne i s with rfl | hisne
        · exact List.mem_cons_self _ _
        · refine List.mem_cons_of_mem _ ?_
          have hifree : IS_FREE i (main_init w h cells).visited = true :=
            (hfree i).2 ⟨hi, h1, hisne⟩
          have hcomp : isCompletion ⟨w, h, e, cells.countP (fun c => c ≠ 1)⟩
              (main_init w h cells).visited s 1 p = true :=
            isCompletion_iff.2 ⟨hchain, hall, hpnd, hplen, hlast⟩
          exact completion_covers (by dsimp only; omega) hcomp i hifree
    · exact (adjChain_iff_stepChain p s hs hpbound).2 hchain

lemma isHamPath_head_ne {w h : Nat} {cells : List Nat} {s e d : Nat}
    {p : List Nat} (hd : d ≠ s) :
    isHamPath w h cells s e (d :: p) = false := by
  rcases hval : isHamPath w h cells s e (d :: p) with _ | _
  · rfl
  · obtain ⟨_, hhead, _⟩ := isHamPath_iff.1 hval
    exact absurd hhead hd

/-- The number of Hamiltonian duct paths equals the number of completions
of the state `main` starts the search from. -/
lemma hamCount_eq_numCompletions {w h : Nat} {cells : List Nat} {s e : Nat}
    (hv : ValidGrid w h cells)
    (hs : s < w * h) (hvs : cells.getD s 0 = 2) :
    hamCount w h cells s e
      = numCompletions ⟨w, h, e, cells.countP (fun c => c ≠ 1)⟩
          (main_init w h cells).visited s 1 := by
  obtain ⟨hw, hh, hlen, hval, hcount2, hcount3⟩ := hv
  have hPL : 1 ≤ cells.countP (fun c => c ≠ 1) := by
    have hmem : (2 : Nat) ∈ cells := by
      apply List.count_pos_iff.1
      omega
    exact List.countP_pos_iff.2 ⟨2, hmem, by simp⟩
  unfold hamCount numCompletions
  dsimp only
  have hPL1 : cells.countP (fun c => c ≠ 1)
      = (cells.countP (fun c => c ≠ 1) - 1) + 1 := by omega
  conv_lhs => rw [hPL1]
  rw [countP_allLists_succ]
  have hsub : cells.countP (fun c => c ≠ 1) - 1 = (cells.countP (fun c => c ≠ 1)) - 1 := rfl
  rw [Finset.sum_eq_single s]
  · refine List.countP_congr fun p _ => ?_
    exact isHamPath_cons_iff hlen hcount2 hs hvs p
  · intro d _ hd
    rw [List.countP_eq_zero]
    intro p _
    rw [isHamPath_head_ne hd]
    simp
  · intro habs
    exact absurd (Finset.mem_range.2 hs) habs

/-!
## Remaining support: the visited-set invariant and the no-validation facts
-/


lemma cell_update_ge4 {c : Nat} (hc : 4 ≤ c) (i : Nat) (s : Conf) :
    cell_update i c s = cell_update i 0 s := by
  rcases c with _ | _ | _ | _ | k
  · omega
  · omega
  · omega
  · omega
  · rfl

lemma scan_cells_congr_ge4 :
    ∀ (pre : List Nat) (i : Nat) (s : Conf) (c : Nat) (post : List Nat),
      4 ≤ c →
      scan_cells i (pre ++ c :: post) s = scan_cells i (pre ++ 0 :: post) s := by
  intro pre
  induction pre with
  | nil =>
    intro i s c post hc
    rw [List.nil_append, List.nil_append, scan_cells_cons, scan_cells_cons,
      cell_update_ge4 hc]
  | cons x xs ih =>
    intro i s c post hc
    rw [List.cons_append, List.cons_append, scan_cells_cons, scan_cells_cons,
      ih _ _ _ _ hc]

lemma visited_invariant_extend {cells path : List Nat} {v : List Bool} {d : Nat}
    (hinv : VisitedInvariant cells path v) (hd : d < cells.length) :
    VisitedInvariant cells (path ++ [d]) (v.set d true) := by
  obtain ⟨hlen, hiff⟩ := hinv
  refine ⟨by rw [List.length_set]; exact hlen, ?_⟩
  intro i hi
  rcases eq_or_ne d i with rfl | hne
  · rw [getD_set_self _ _ (by omega)]
    simp
  · rw [getD_set_ne _ _ hne]
    rw [hiff i hi]
    constructor
    · rintro (hmem | hblk)
      · exact Or.inl (List.mem_append_left _ hmem)
      · exact Or.inr hblk
    · rintro (hmem | hblk)
      · rcases List.mem_append.1 hmem with hmem | hmem
        · exact Or.inl hmem
        · rw [List.mem_singleton] at hmem
          exact absurd hmem.symm hne
      · exact Or.inr hblk

lemma visited_invariant_init {w h : Nat} {cells : List Nat} {s : Nat}
    (hlen : cells.length = w * h) (hcount : cells.count 2 = 1)
    (hs : s < cells.length) (hvs : cells.getD s 0 = 2) :
    VisitedInvariant cells [s] (main_init w h cells).visited := by
  refine ⟨by rw [main_init_visited_length]; omega, ?_⟩
  intro i hi
  rw [main_init_visited_getD hlen (by omega) true]
  constructor
  · intro htrue
    rw [Bool.or_eq_true] at htrue
    rcases htrue with hb | hb
    · exact Or.inr (eq_of_beq hb)
    · exact Or.inl (by
        rw [List.mem_singleton]
        exact count_one_unique cells 2 hcount i s (by omega) hs (eq_of_beq hb) hvs)
  · rintro (hmem | hblk)
    · rw [List.mem_singleton] at hmem
      subst hmem
      rw [hvs]
      rfl
    · rw [hblk]
      rfl

lemma main_run_eq_numCompletions {w h : Nat} {cells : List Nat} {s e : Nat}
    (hv : ValidGrid w h cells)
    (hs : s < w * h) (hvs : cells.getD s 0 = 2)
    (he : e < w * h) (hve : cells.getD e 0 = 3) :
    main_run w h cells
      = (numCompletions ⟨w, h, e, cells.countP (fun c => c ≠ 1)⟩
          (main_init w h cells).visited s 1 : Int) := by
  obtain ⟨hw, hh, hlen, hval, hcount2, hcount3⟩ := hv
  unfold main_run
  dsimp only
  rw [main_init_start hcount2 (by omega) hvs,
    main_init_endPos hcount3 (by omega) hve,
    main_init_path_length]
  have hinv := @main_init_freeCount w h cells s hlen hcount2 (by omega) hvs
  have hnotfree := main_init_start_not_free hlen (by omega) hvs
  have hvlen := main_init_visited_length w h cells
  exact count_paths_eq_numCompletions _ _ _ _ _
    ⟨hvlen, hs, hnotfree, by dsimp only; omega⟩
    (by have := freeCount_le (main_init w h cells).visited; omega)

lemma main_run_noprune_eq_numCompletions {w h : Nat} {cells : List Nat}
    {s e : Nat} (hv : ValidGrid w h cells)
    (hs : s < w * h) (hvs : cells.getD s 0 = 2)
    (he : e < w * h) (hve : cells.getD e 0 = 3) :
    main_run_noprune w h cells
      = (numCompletions ⟨w, h, e, cells.countP (fun c => c ≠ 1)⟩
          (main_init w h cells).visited s 1 : Int) := by
  obtain ⟨hw, hh, hlen, hval, hcount2, hcount3⟩ := hv
  unfold main_run_noprune
  dsimp only
  rw [main_init_start hcount2 (by omega) hvs,
    main_init_endPos hcount3 (by omega) hve,
    main_init_path_length]
  have hinv := @main_init_freeCount w h cells s hlen hcount2 (by omega) hvs
  have hnotfree := main_init_start_not_free hlen (by omega) hvs
  have hvlen := main_init_visited_length w h cells
  exact count_paths_noprune_eq_numCompletions _ _ _ _ _
    ⟨hvlen, hs, hnotfree, by dsimp only; omega⟩
    (by have := freeCount_le (main_init w h cells).visited; omega)

/-!
## The claims
-/

/-- C1: for every valid grid (positive width and height, exactly one Start
cell and one distinct End cell), the value the program prints —
`count_paths(start, 1)` as run by `main` — equals the number of Hamiltonian
paths from the Start cell to the End cell: simple paths that visit every
non-Blocked cell exactly once and move only between horizontally or
vertically adjacent in-bounds cells. -/
theorem search_counts_hamiltonian_paths
    (w h : Nat) (cells : List Nat) (s e : Nat)
    (hv : ValidGrid w h cells)
    (hs : s < w * h) (hvs : cells.getD s 0 = 2)
    (he : e < w * h) (hve : cells.getD e 0 = 3) :
    main_run w h cells = (hamCount w h cells s e : Int) := by
  rw [main_run_eq_numCompletions hv hs hvs he hve,
    hamCount_eq_numCompletions hv hs hvs]

theorem search_counts_hamiltonian_paths_witness :
    ValidGrid 2 1 [2,3] ∧ 0 < 2 * 1 ∧ ([2,3] : List Nat).getD 0 0 = 2
    ∧ 1 < 2 * 1 ∧ ([2,3] : List Nat).getD 1 0 = 3
    ∧ main_run 2 1 [2,3] = (hamCount 2 1 [2,3] 0 1 : Int) :=
  ⟨by decide, by decide, by decide, by decide, by decide,
    search_counts_hamiltonian_paths 2 1 [2,3] 0 1 (by decide) (by decide)
      (by decide) (by decide) (by decide)⟩

/-- C2: on every valid grid the pruned DFS prints the same count as the
plain unpruned DFS, and whenever the degree gate fires at a reachable
search state, even the unpruned search of that subtree yields zero
completed Hamiltonian paths — pruning never changes the result. -/
theorem pruned_equals_unpruned :
    (∀ (w h : Nat) (cells : List Nat), ValidGrid w h cells →
      main_run w h cells = main_run_noprune w h cells)
    ∧ (∀ (g : Grid) (v : List Bool) (crt length fuel : Nat),
        SearchInv g v crt length → freeCount v < fuel →
        path_has_rooms_with_degree_lt_2 g v crt = true →
        (count_paths_noprune g fuel crt length v).1 = 0) := by
  constructor
  · intro w h cells hv
    obtain ⟨hw, hh, hlen, hval, hcount2, hcount3⟩ := hv
    have hmem2 : (2 : Nat) ∈ cells := List.count_pos_iff.1 (by omega)
    have hmem3 : (3 : Nat) ∈ cells := List.count_pos_iff.1 (by omega)
    obtain ⟨s, hs, hvs⟩ := mem_getD hmem2
    obtain ⟨e, he, hve⟩ := mem_getD hmem3
    rw [main_run_eq_numCompletions ⟨hw, hh, hlen, hval, hcount2, hcount3⟩
        (by omega) hvs (by omega) hve,
      main_run_noprune_eq_numCompletions ⟨hw, hh, hlen, hval, hcount2, hcount3⟩
        (by omega) hvs (by omega) hve]
  · rintro g v crt length fuel ⟨hvlen, hcrt, hvis, hlen⟩ hfuel hprune
    rw [count_paths_noprune_eq_numCompletions g fuel v crt length
      ⟨hvlen, hcrt, hvis, hlen⟩ hfuel]
    rw [prune_sound hvlen hcrt hvis hlen hprune]
    rfl

theorem pruned_equals_unpruned_witness :
    ValidGrid 2 1 [2,3] ∧ main_run 2 1 [2,3] = main_run_noprune 2 1 [2,3] :=
  ⟨by decide, pruned_equals_unpruned.1 2 1 [2,3] (by decide)⟩

/-- C3 (counterexample): on width 3, height 2 with cells [2,0,0,0,3,1] the
program does not print 2. -/
theorem example_grid_not_two : main_run 3 2 [2,0,0,0,3,1] ≠ 2 := by decide

/-- C3 (amended): on width 3, height 2 with cells [2,0,0,0,3,1] the program
prints exactly 0 — and 0 is the true number of Hamiltonian paths from the
Start cell at index 0 to the End cell at index 4 (the unpruned search
agrees). -/
theorem example_grid_yields_zero :
    main_run 3 2 [2,0,0,0,3,1] = 0
    ∧ main_run_noprune 3 2 [2,0,0,0,3,1] = 0
    ∧ hamCount 3 2 [2,0,0,0,3,1] 0 4 = 0 := by
  have hmr : main_run 3 2 [2,0,0,0,3,1] = 0 := by decide
  have hnp : main_run_noprune 3 2 [2,0,0,0,3,1] = 0 := by decide
  refine ⟨hmr, hnp, ?_⟩
  have heq : main_run 3 2 [2,0,0,0,3,1] = (hamCount 3 2 [2,0,0,0,3,1] 0 4 : Int) := by
    rw [@main_run_eq_numCompletions 3 2 [2,0,0,0,3,1] 0 4 (by decide)
        (by decide) (by decide) (by decide) (by decide),
      @hamCount_eq_numCompletions 3 2 [2,0,0,0,3,1] 0 4 (by decide)
        (by decide) (by decide)]
  rw [hmr] at heq
  exact_mod_cast heq.symm

/-- C4 (counterexample): the input `width=2 height=1`, cells `[3,0]`, is
malformed — it has no Start marker, and the parsed configuration leaves
Start and End at the same cell 0 — yet the program runs the search anyway
and prints 0.  There is no ConfigurationError path. -/
theorem malformed_input_still_searches :
    ([3,0] : List Nat).count 2 = 0
    ∧ (main_init 2 1 [3,0]).start = (main_init 2 1 [3,0]).endPos
    ∧ main_run 2 1 [3,0] = 0 := by decide

/-- C4 (amended): the program performs no input validation: malformed
inputs are not rejected and the search always runs; in particular a cell
value outside {0,1,2,3} is treated exactly like an Owned (0) cell. -/
theorem no_validation_value_as_owned
    (w h : Nat) (pre post : List Nat) (c : Nat) (hc : 4 ≤ c) :
    main_run w h (pre ++ c :: post) = main_run w h (pre ++ 0 :: post) := by
  unfold main_run main_init
  rw [scan_cells_congr_ge4 pre 0 _ c post hc]

theorem no_validation_value_as_owned_witness :
    4 ≤ 7 ∧ main_run 2 1 ([] ++ 7 :: [3]) = main_run 2 1 ([] ++ 0 :: [3]) :=
  ⟨by decide, no_validation_value_as_owned 2 1 [] [3] 7 (by decide)⟩

/-- C5: `path_has_rooms_with_degree_lt_2(crt)` returns 1 exactly when some
cell `i` that is unvisited and not the End cell has available degree below
two, the available degree counting exactly the in-bounds grid-neighbours of
`i` (up, right in the same row, down, left in the same row) that are
unvisited or equal to `crt`. -/
theorem prune_flag_iff_low_degree_cell (g : Grid) (v : List Bool) (crt : Nat) :
    path_has_rooms_with_degree_lt_2 g v crt = true ↔
    ∃ i, i < g.width * g.height ∧ IS_FREE i v = true ∧ i ≠ g.endPos
      ∧ specAvailDegree g v crt i < 2 := by
  rw [prune_iff]
  constructor
  · rintro ⟨i, hi, h1, h2, h3⟩
    exact ⟨i, hi, h1, h2, by rw [← degreeOf_eq_card hi]; exact h3⟩
  · rintro ⟨i, hi, h1, h2, h3⟩
    exact ⟨i, hi, h1, h2, by rw [degreeOf_eq_card hi]; exact h3⟩

/-- C6: the visited set is exactly the cells of the current partial path
plus the Blocked cells, at every point of the recursion: the property holds
for the state `main` builds (Start plus Blocked), it is preserved when
`go_into_room` marks the room it enters, and both `count_paths` and
`go_into_room` hand back the visited array they received, so sibling
branches observe the same state. -/
theorem visited_reflects_path_and_blocked :
    (∀ (g : Grid) (fuel crt length : Nat) (v : List Bool),
      (count_paths g fuel crt length v).2 = v)
    ∧ (∀ (g : Grid) (fuel room length : Nat) (v : List Bool),
        IS_FREE room v = true → (go_into_room g fuel room length v).2 = v)
    ∧ (∀ (cells path : List Nat) (v : List Bool) (d : Nat),
        VisitedInvariant cells path v → d < cells.length →
        VisitedInvariant cells (path ++ [d]) (v.set d true))
    ∧ (∀ (w h : Nat) (cells : List Nat) (s : Nat),
        cells.length = w * h → cells.count 2 = 1 → s < cells.length →
        cells.getD s 0 = 2 →
        VisitedInvariant cells [s] (main_init w h cells).visited) := by
  refine ⟨fun g => count_paths_snd g, ?_, ?_, ?_⟩
  · intro g fuel room length v hfree
    unfold go_into_room
    dsimp only
    rw [count_paths_snd]
    exact set_restore hfree
  · intro cells path v d hinv hd
    exact visited_invariant_extend hinv hd
  · intro w h cells s hlen hcount hs hvs
    exact visited_invariant_init hlen hcount hs hvs

theorem visited_reflects_path_and_blocked_witness :
    IS_FREE 1 [true, false] = true
    ∧ (go_into_room ⟨2, 1, 1, 2⟩ 3 1 1 [true, false]).2 = [true, false]
    ∧ VisitedInvariant [2, 0] [0] [true, false]
    ∧ VisitedInvariant [2, 0] ([0] ++ [1]) ([true, false].set 1 true) :=
  ⟨by decide,
    visited_reflects_path_and_blocked.2.1 ⟨2, 1, 1, 2⟩ 3 1 1 [true, false]
      (by decide),
    by decide,
    visited_reflects_path_and_blocked.2.2.1 [2, 0] [0] [true, false] 1
      (by decide) (by decide)⟩

/-- C7: Blocked cells never lie on a counted path and a count is
contributed exactly at full length: the printed total counts the
Hamiltonian duct paths, and every such path avoids Blocked cells, has
exactly `total_free_cells` cells and ends at the End cell. -/
theorem counted_paths_avoid_blocked_exact_length
    (w h : Nat) (cells : List Nat) (s e : Nat)
    (hv : ValidGrid w h cells)
    (hs : s < w * h) (hvs : cells.getD s 0 = 2)
    (he : e < w * h) (hve : cells.getD e 0 = 3) :
    main_run w h cells = (hamCount w h cells s e : Int)
    ∧ ∀ q, isHamPath w h cells s e q = true →
        (∀ i ∈ q, cells.getD i 0 ≠ 1)
        ∧ q.length = cells.countP (fun c => c ≠ 1)
        ∧ q.getLastD 0 = e := by
  constructor
  · rw [main_run_eq_numCompletions hv hs hvs he hve,
      hamCount_eq_numCompletions hv hs hvs]
  · intro q hq
    obtain ⟨hne, hhead, hlast, hnd, hbound, hcov, hadj⟩ := isHamPath_iff.1 hq
    exact ⟨fun i hi => (hbound i hi).2,
      hampath_length hv.2.2.1 hnd hbound hcov, hlast⟩

theorem counted_paths_avoid_blocked_exact_length_witness :
    ValidGrid 2 1 [2,3]
    ∧ (main_run 2 1 [2,3] = (hamCount 2 1 [2,3] 0 1 : Int)
      ∧ ∀ q, isHamPath 2 1 [2,3] 0 1 q = true →
          (∀ i ∈ q, ([2,3] : List Nat).getD i 0 ≠ 1)
          ∧ q.length = ([2,3] : List Nat).countP (fun c => c ≠ 1)
          ∧ q.getLastD 0 = 1) :=
  ⟨by decide,
    counted_paths_avoid_blocked_exact_length 2 1 [2,3] 0 1 (by decide)
      (by decide) (by decide) (by decide) (by decide)⟩

/-- C8: the search terminates with a nonnegative count: the result does not
depend on the fuel once it exceeds the total cell count `width*height`
(which bounds the recursion depth, since each call marks one more cell),
and the count is never negative. -/
theorem search_terminates_nonneg
    (g : Grid) (fuel crt length : Nat) (v : List Bool)
    (hvlen : v.length = g.width * g.height)
    (hfuel : g.width * g.height < fuel) :
    count_paths g fuel crt length v
      = count_paths g (g.width * g.height + 1) crt length v
    ∧ 0 ≤ (count_paths g fuel crt length v).1 := by
  have hfc : freeCount v ≤ g.width * g.height := by
    have := freeCount_le v
    omega
  exact ⟨count_paths_fuel g fuel (g.width * g.height + 1) crt length v
      (by omega) (by omega),
    count_paths_fst_nonneg g fuel crt length v⟩

theorem search_terminates_nonneg_witness :
    ([true, false] : List Bool).length = 2 * 1 ∧ 2 * 1 < 5
    ∧ (count_paths ⟨2, 1, 1, 2⟩ 5 0 1 [true, false]
        = count_paths ⟨2, 1, 1, 2⟩ (2 * 1 + 1) 0 1 [true, false]
      ∧ 0 ≤ (count_paths ⟨2, 1, 1, 2⟩ 5 0 1 [true, false]).1) :=
  ⟨by decide, by decide,
    search_terminates_nonneg ⟨2, 1, 1, 2⟩ 5 0 1 [true, false]
      (by decide) (by decide)⟩

/-- C9: running the search twice yields the same result: `count_paths`
returns the visited array in its initial state (Start and Blocked cells
marked, everything else unmarked, exactly as it received it), so a second
identical invocation — run on the state the first one left behind —
returns the identical result. -/
theorem search_idempotent
    (g : Grid) (fuel crt length : Nat) (v : List Bool) :
    (count_paths g fuel crt length v).2 = v
    ∧ count_paths g fuel crt length ((count_paths g fuel crt length v).2)
        = count_paths g fuel crt length v := by
  refine ⟨count_paths_snd g fuel crt length v, ?_⟩
  rw [count_paths_snd]

/-- C10: entering the End cell early never contributes: a recursive call
`count_paths(end, length)` made through `go_into_room` with
`length < path_length` returns 0, because End is marked visited on entry
and the accepting state can never be reached again in that subtree. -/
theorem early_end_contributes_zero
    (g : Grid) (fuel length : Nat) (v : List Bool)
    (hlen : length < g.path_length) :
    (go_into_room g fuel g.endPos length v).1 = 0
    ∧ (v.getD g.endPos true = true →
        (count_paths g fuel g.endPos length v).1 = 0) := by
  constructor
  · unfold go_into_room
    dsimp only
    exact count_paths_end_visited g fuel g.endPos length _
      (getD_set_true_self v g.endPos) (fun _ => by omega)
  · intro hvis
    exact count_paths_end_visited g fuel g.endPos length v hvis
      (fun _ => by omega)

theorem early_end_contributes_zero_witness :
    1 < (⟨2, 1, 1, 2⟩ : Grid).path_length
    ∧ ((go_into_room ⟨2, 1, 1, 2⟩ 3 (Grid.endPos ⟨2, 1, 1, 2⟩) 1 [false, false]).1 = 0
      ∧ (([false, false] : List Bool).getD (Grid.endPos ⟨2, 1, 1, 2⟩) true = true →
          (count_paths ⟨2, 1, 1, 2⟩ 3 (Grid.endPos ⟨2, 1, 1, 2⟩) 1 [false, false]).1 = 0)) :=
  ⟨by decide,
    early_end_contributes_zero ⟨2, 1, 1, 2⟩ 3 1 [false, false] (by decide)⟩
